import Mathlib

/-!
Verification of the spec-RAG document pipeline (documentProcessor.ts,
groqService.ts, openaiService.ts).

The TypeScript services are shallowly embedded: JavaScript numbers used as
exact values are modelled by `ℚ` (page coordinates, JSON numbers) or `ℝ`
(embedding components, cosine scores), strings by `String`/`List Char`, the
insertion-ordered `Map` of pdf.js row grouping by an association list, and
`Array.prototype.sort` (stable by the ECMAScript specification) by a stable
insertion sort.  Fallible operations return `Option`/`Except`.
-/

/- ### Stable sorting
`Array.prototype.sort(cmp)` is required by ECMAScript to be a stable sort with
respect to the comparator.  `sortAscBy key` models `.sort((a, b) => key(a) - key(b))`
and `sortDescBy key` models `.sort((a, b) => key(b) - key(a))`. -/

def insertAscBy {α β : Type} [LinearOrder β] (key : α → β) (x : α) : List α → List α
  | [] => [x]
  | y :: ys => if key x ≤ key y then x :: y :: ys else y :: insertAscBy key x ys

def sortAscBy {α β : Type} [LinearOrder β] (key : α → β) : List α → List α
  | [] => []
  | x :: xs => insertAscBy key x (sortAscBy key xs)

def insertDescBy {α β : Type} [LinearOrder β] (key : α → β) (x : α) : List α → List α
  | [] => [x]
  | y :: ys => if key y ≤ key x then x :: y :: ys else y :: insertDescBy key x ys

def sortDescBy {α β : Type} [LinearOrder β] (key : α → β) : List α → List α
  | [] => []
  | x :: xs => insertDescBy key x (sortDescBy key xs)

/- ### Layout reconstruction (DocumentProcessor.extractTextWithStructure)

pdf.js hands back unordered positioned text items; the source groups them into
rows by Y coordinate (±3px), sorts rows top-to-bottom (descending Y), sorts
items in a row left-to-right (ascending X), joins item texts with two spaces
and rows with newlines. -/

def dropTrailingWs (cs : List Char) : List Char :=
  (cs.reverse.dropWhile Char.isWhitespace).reverse

/-- JavaScript `String.prototype.trim` at the character-list level. -/
def trimL (cs : List Char) : List Char := dropTrailingWs (cs.dropWhile Char.isWhitespace)

/-- JavaScript `String.prototype.trim`. -/
def jsTrim (s : String) : String := String.mk (trimL s.data)

/-- A positioned text fragment: `item.str`, `item.transform[4]` (X) and
`item.transform[5]` (Y) of a pdf.js text item. -/
structure Frag where
  str : String
  x : ℚ
  y : ℚ

/-- JavaScript `Math.round`: round half toward positive infinity. -/
def jsRound (q : ℚ) : ℤ := ⌊q + 1 / 2⌋

/-- Row tolerance: `const ROW_DELTA = 3`. -/
def ROW_DELTA : ℤ := 3

/-- Append a fragment to the row stored under `key` (models
`lineMap.get(existingKey)!.push(item)`; `Map` keys are unique). -/
def addToRow (key : ℤ) (f : Frag) : List (ℤ × List Frag) → List (ℤ × List Frag)
  | [] => []
  | e :: rest => if e.1 = key then (e.1, e.2 ++ [f]) :: rest else e :: addToRow key f rest

/-- One arriving fragment (documentProcessor.ts lines 53–63): round its Y
coordinate, look for the first existing row key within `ROW_DELTA`
(`Array.from(lineMap.keys()).find(k => Math.abs(k - y) < ROW_DELTA)`, insertion
order), append there if found, otherwise start a new row keyed by `y`. -/
def rowStep (m : List (ℤ × List Frag)) (f : Frag) : List (ℤ × List Frag) :=
  let y := jsRound f.y
  match m.find? (fun e => decide ((e.1 - y).natAbs < ROW_DELTA.natAbs)) with
  | some e => addToRow e.1 f m
  | none => m ++ [(y, [f])]

/-- `items.forEach(...)` over the page's fragments, building the insertion-ordered
row map. -/
def groupRows (items : List Frag) : List (ℤ × List Frag) := items.foldl rowStep []

/-- Render one row: sort fragments by ascending X, trim each text, drop empty
texts (`filter(Boolean)`), join with a double space. -/
def renderRow (fs : List Frag) : String :=
  String.intercalate "  "
    (((sortAscBy (fun f => f.x) fs).map (fun f => jsTrim f.str)).filter (fun s => !(s == "")))

/-- Render a page (documentProcessor.ts lines 66–77): keys sorted by descending
Y, each row rendered, blank lines dropped, rows joined with newlines. -/
def renderPage (items : List Frag) : String :=
  let m := groupRows items
  String.intercalate "\n"
    (((sortDescBy id (m.map Prod.fst)).map
        (fun y => renderRow ((m.lookup y).getD []))).filter (fun line => !(jsTrim line == "")))

/- ### Chunking (DocumentProcessor.generateSemanticChunks)

The three regular-expression classifiers of the source (`SECTION_HEADER` match,
the sub-header `split`, and `SPEC_VALUE_PATTERN.test`) are heuristic text
classifiers; the model takes them as parameters (`matchSection`, `splitSegs`,
`specTest`), so every theorem below holds for the concrete regexes as a special
case.  Everything else — the `activeSection` accumulator, the 30-character
noise filter, the id/text templates, and the budgeted selection — is embedded
directly. -/

/-- Chunk id template: `` `p${page.num}-s${sIdx}` ``. -/
def encodeChunkId (page idx : ℕ) : String :=
  "p" ++ toString page ++ "-s" ++ toString idx

/-- One input page: `{ num, content }` as produced by `extractTextWithStructure`. -/
structure PageIn where
  num : ℕ
  content : String

/-- A chunk as in types.ts (`section` is renamed `sectionLabel` because
`section` is a Lean keyword). -/
structure Chunk where
  id : String
  text : String
  sectionLabel : String
  page : ℕ
  isSpecPriority : Bool
  embedding : Option (List ℝ) := none

/-- Chunks of one page (documentProcessor.ts lines 126–146): split the content
into segments, keep each segment's index `sIdx`, drop segments shorter than 30
characters after trimming, classify the rest, and wrap with the
`SECTION:/PAGE:/CONTENT:` header template. -/
def pageChunks (splitSegs : String → List String) (specTest : String → Bool)
    (active : String) (p : PageIn) : List Chunk :=
  (splitSegs p.content).enum.filterMap (fun pr =>
    let clean := jsTrim pr.2
    if clean.length < 30 then none
    else some
      { id := encodeChunkId p.num pr.1
        text := "SECTION: " ++ active ++ "\nPAGE: " ++ toString p.num ++ "\nCONTENT: " ++ clean
        sectionLabel := active
        page := p.num
        isSpecPriority := specTest clean
        embedding := none })

/-- The `pages.forEach` loop with the `activeSection` accumulator: a page whose
content matches the section-header pattern updates the active section before
its own chunks are built, and the updated value persists to later pages. -/
def chunkPages (matchSection : String → Option String) (splitSegs : String → List String)
    (specTest : String → Bool) : String → List PageIn → List Chunk
  | _, [] => []
  | active, p :: ps =>
    let newActive := (matchSection p.content).getD active
    pageChunks splitSegs specTest newActive p ++
      chunkPages matchSection splitSegs specTest newActive ps

/-- All chunks generated before selection (`allChunks`), starting from
`activeSection = "GENERAL INFORMATION"`. -/
def allChunksOf (matchSection : String → Option String) (splitSegs : String → List String)
    (specTest : String → Bool) (pages : List PageIn) : List Chunk :=
  chunkPages matchSection splitSegs specTest "GENERAL INFORMATION" pages

/-- Budgeted selection (documentProcessor.ts lines 149–156): spec-priority
chunks first, general chunks fill the rest of the budget, overall truncation to
`maxChunks` (default 300).  Natural subtraction models `Math.max(0, maxChunks -
specChunks.length)`. -/
def generateSemanticChunks (matchSection : String → Option String)
    (splitSegs : String → List String) (specTest : String → Bool)
    (pages : List PageIn) (maxChunks : ℕ := 300) : List Chunk :=
  let allChunks := allChunksOf matchSection splitSegs specTest pages
  let specChunks := allChunks.filter (fun c => c.isSpecPriority)
  let generalChunks := allChunks.filter (fun c => !c.isSpecPriority)
  (specChunks ++ generalChunks.take (maxChunks - specChunks.length)).take maxChunks

/-- `const specChunks = allChunks.filter(c => c.isSpecPriority)`. -/
def specChunksOf (matchSection : String → Option String) (splitSegs : String → List String)
    (specTest : String → Bool) (pages : List PageIn) : List Chunk :=
  (allChunksOf matchSection splitSegs specTest pages).filter (fun c => c.isSpecPriority)

/-- `const generalChunks = allChunks.filter(c => !c.isSpecPriority)`. -/
def generalChunksOf (matchSection : String → Option String) (splitSegs : String → List String)
    (specTest : String → Bool) (pages : List PageIn) : List Chunk :=
  (allChunksOf matchSection splitSegs specTest pages).filter (fun c => !c.isSpecPriority)

/- ### JSON values and a model of `JSON.parse`

JSON numbers are exact decimals; they are modelled by `ℚ`.  The parser is a
fueled recursive-descent parser accepting exactly the JSON grammar (values:
object, array, string with escapes, number without leading zeros, `true`,
`false`, `null`; whitespace: space, tab, CR, LF), with the whole input
consumed up to trailing whitespace, as `JSON.parse` does. -/

def lbrace : Char := Char.ofNat 123

def rbrace : Char := Char.ofNat 125

def btick : Char := Char.ofNat 96

inductive Json where
  | null : Json
  | bool (b : Bool) : Json
  | num (q : ℚ) : Json
  | str (s : String) : Json
  | arr (elems : List Json) : Json
  | obj (fields : List (String × Json)) : Json

def parseHexDigit (c : Char) : Option ℕ :=
  if c.isDigit then some (c.toNat - 48)
  else if 'a' ≤ c ∧ c ≤ 'f' then some (c.toNat - 87)
  else if 'A' ≤ c ∧ c ≤ 'F' then some (c.toNat - 55)
  else none

/-- Body of a JSON string after the opening quote; handles the escape
sequences of the JSON grammar and rejects raw control characters. -/
def parseStringBody (acc : List Char) : List Char → Option (String × List Char)
  | [] => none
  | c :: rest =>
    if c = '"' then some (String.mk acc.reverse, rest)
    else if c = '\\' then
      match rest with
      | [] => none
      | e :: rest₂ =>
        if e = '"' then parseStringBody ('"' :: acc) rest₂
        else if e = '\\' then parseStringBody ('\\' :: acc) rest₂
        else if e = '/' then parseStringBody ('/' :: acc) rest₂
        else if e = 'b' then parseStringBody (Char.ofNat 8 :: acc) rest₂
        else if e = 'f' then parseStringBody (Char.ofNat 12 :: acc) rest₂
        else if e = 'n' then parseStringBody ('\n' :: acc) rest₂
        else if e = 'r' then parseStringBody ('\r' :: acc) rest₂
        else if e = 't' then parseStringBody ('\t' :: acc) rest₂
        else if e = 'u' then
          match rest₂ with
          | h1 :: h2 :: h3 :: h4 :: rest₃ =>
            match parseHexDigit h1, parseHexDigit h2, parseHexDigit h3, parseHexDigit h4 with
            | some a, some b, some c2, some d =>
              parseStringBody (Char.ofNat (((a * 16 + b) * 16 + c2) * 16 + d) :: acc) rest₃
            | _, _, _, _ => none
          | _ => none
        else none
    else if c.toNat < 32 then none
    else parseStringBody (c :: acc) rest

def digitsToNat (ds : List Char) : ℕ := ds.foldl (fun a c => a * 10 + (c.toNat - 48)) 0

/-- Fractional part of a JSON number: `none` on a dot not followed by a digit. -/
def parseFracPart (cs : List Char) : Option (List Char × List Char) :=
  match cs with
  | c :: rest =>
    if c = '.' then
      let ds := rest.takeWhile Char.isDigit
      if ds.isEmpty then none else some (ds, rest.dropWhile Char.isDigit)
    else some ([], cs)
  | [] => some ([], cs)

/-- Exponent part of a JSON number: `none` on `e`/`E` not followed by digits. -/
def parseExpPart (cs : List Char) : Option (Option (Bool × ℕ) × List Char) :=
  match cs with
  | c :: rest =>
    if c = 'e' ∨ c = 'E' then
      let signAndRest :=
        match rest with
        | s :: r2 => if s = '+' then (false, r2) else if s = '-' then (true, r2) else (false, rest)
        | [] => (false, rest)
      let ds := signAndRest.2.takeWhile Char.isDigit
      if ds.isEmpty then none
      else some (some (signAndRest.1, digitsToNat ds), signAndRest.2.dropWhile Char.isDigit)
    else some (none, cs)
  | [] => some (none, cs)

/-- JSON number: optional minus, integer part without leading zeros, optional
fraction, optional exponent; exact value as a rational. -/
def parseNumber (cs : List Char) : Option (ℚ × List Char) :=
  let signAndRest :=
    match cs with
    | c :: rest => if c = '-' then (true, rest) else (false, cs)
    | [] => (false, cs)
  let neg := signAndRest.1
  let cs₁ := signAndRest.2
  let intDs := cs₁.takeWhile Char.isDigit
  if intDs.isEmpty then none
  else if 1 < intDs.length ∧ intDs.head? = some '0' then none
  else
    match parseFracPart (cs₁.dropWhile Char.isDigit) with
    | none => none
    | some (fracDs, cs₂) =>
      match parseExpPart cs₂ with
      | none => none
      | some (expPart, cs₃) =>
        let mant : ℚ :=
          ((digitsToNat intDs * 10 ^ fracDs.length + digitsToNat fracDs : ℕ) : ℚ) /
            ((10 : ℚ) ^ fracDs.length)
        let scaled : ℚ :=
          match expPart with
          | none => mant
          | some ep => if ep.1 then mant / (10 : ℚ) ^ ep.2 else mant * (10 : ℚ) ^ ep.2
        some ((if neg then -scaled else scaled), cs₃)

mutual

def parseValue : ℕ → List Char → Option (Json × List Char)
  | 0, _ => none
  | fuel + 1, cs =>
    match List.dropWhile Char.isWhitespace cs with
    | [] => none
    | c :: rest =>
      if c = '[' then
        match List.dropWhile Char.isWhitespace rest with
        | ']' :: rest₂ => some (Json.arr [], rest₂)
        | rest₂ => (parseItems fuel rest₂).map (fun pr => (Json.arr pr.1, pr.2))
      else if c = lbrace then
        match List.dropWhile Char.isWhitespace rest with
        | [] => none
        | d :: rest₂ =>
          if d = rbrace then some (Json.obj [], rest₂)
          else (parseFields fuel (d :: rest₂)).map (fun pr => (Json.obj pr.1, pr.2))
      else if c = '"' then
        (parseStringBody [] rest).map (fun pr => (Json.str pr.1, pr.2))
      else if c = 't' then
        if rest.take 3 = ['r', 'u', 'e'] then some (Json.bool true, rest.drop 3) else none
      else if c = 'f' then
        if rest.take 4 = ['a', 'l', 's', 'e'] then some (Json.bool false, rest.drop 4) else none
      else if c = 'n' then
        if rest.take 3 = ['u', 'l', 'l'] then some (Json.null, rest.drop 3) else none
      else if c = '-' ∨ c.isDigit then
        (parseNumber (c :: rest)).map (fun pr => (Json.num pr.1, pr.2))
      else none

def parseItems : ℕ → List Char → Option (List Json × List Char)
  | 0, _ => none
  | fuel + 1, cs =>
    match parseValue fuel cs with
    | none => none
    | some (v, rest) =>
      match List.dropWhile Char.isWhitespace rest with
      | [] => none
      | c :: rest₂ =>
        if c = ',' then
          match parseItems fuel rest₂ with
          | some (vs, rest₃) => some (v :: vs, rest₃)
          | none => none
        else if c = ']' then some ([v], rest₂)
        else none

def parseFields : ℕ → List Char → Option (List (String × Json) × List Char)
  | 0, _ => none
  | fuel + 1, cs =>
    match List.dropWhile Char.isWhitespace cs with
    | [] => none
    | c :: rest =>
      if c = '"' then
        match parseStringBody [] rest with
        | none => none
        | some (k, rest₂) =>
          match List.dropWhile Char.isWhitespace rest₂ with
          | [] => none
          | d :: rest₃ =>
            if d = ':' then
              match parseValue fuel rest₃ with
              | none => none
              | some (v, rest₄) =>
                match List.dropWhile Char.isWhitespace rest₄ with
                | [] => none
                | e :: rest₅ =>
                  if e = ',' then
                    match parseFields fuel rest₅ with
                    | some (fs, rest₆) => some ((k, v) :: fs, rest₆)
                    | none => none
                  else if e = rbrace then some ([(k, v)], rest₅)
                  else none
            else none
      else none

end

/-- The model of `JSON.parse` on character lists: parse one value, then accept
only trailing whitespace.  The fuel `2 * length + 2` dominates the recursion
depth (every two fuel steps consume at least one character). -/
def jsonParseL (cs : List Char) : Option Json :=
  match parseValue (2 * cs.length + 2) cs with
  | some (v, rest) => if (List.dropWhile Char.isWhitespace rest).isEmpty then some v else none
  | none => none

/- ### Extractor response processing (groqService.extractSpecs /
openaiService.extractSpecs) -/

/-- `raw.replace(/^```(?:json)?\s*/i, "")`: a leading code fence, an optional
case-insensitive `json` tag and following whitespace are removed. -/
def stripLeadFence (cs : List Char) : List Char :=
  match cs with
  | c1 :: c2 :: c3 :: rest =>
    if c1 = btick ∧ c2 = btick ∧ c3 = btick then
      if (rest.take 4).map Char.toLower = ['j', 's', 'o', 'n'] then
        (rest.drop 4).dropWhile Char.isWhitespace
      else rest.dropWhile Char.isWhitespace
    else cs
  | _ => cs

/-- `.replace(/\s*```$/, "")`: a trailing code fence and the whitespace before
it are removed. -/
def stripTrailFence (cs : List Char) : List Char :=
  match cs.reverse with
  | c1 :: c2 :: c3 :: rrest =>
    if c1 = btick ∧ c2 = btick ∧ c3 = btick then (rrest.dropWhile Char.isWhitespace).reverse
    else cs
  | _ => cs

/-- `text.match(/\[[\s\S]*\]/)`: the leftmost-greedy match runs from the first
`[` of the text to the last `]` after it, if any. -/
def firstBracketSlice (cs : List Char) : Option (List Char) :=
  let l := cs.dropWhile (fun c => decide (c ≠ '['))
  if l = [] then none
  else
    let r := l.reverse.dropWhile (fun c => decide (c ≠ ']'))
    if r = [] then none else some r.reverse

/-- groqService.ts lines 150–153: `raw = content.trim() || "[]"`, then both
fence replacements, then a final `.trim()`. -/
def groqClean (content : List Char) : List Char :=
  let raw := if trimL content = [] then ['[', ']'] else trimL content
  trimL (stripTrailFence (stripLeadFence raw))

/-- `Array.isArray(parsed) ? parsed : []`.  (In the `[...]`-slice fallback the
groq source returns the parsed value without this check; that value starts
with `[`, so a successful parse there is always an array and the check is
vacuous.) -/
def jsonRecords (v : Json) : List Json :=
  match v with
  | Json.arr xs => xs
  | _ => []

/-- The response-parsing step of `GroqService.extractSpecs` (lines 150–165):
clean the raw text, try `JSON.parse` directly, fall back to the first
`[...]` slice, and return `[]` when everything fails. -/
def groqParseResponse (content : List Char) : List Json :=
  let clean := groqClean content
  match jsonParseL clean with
  | some v => jsonRecords v
  | none =>
    match firstBracketSlice clean with
    | some sl =>
      match jsonParseL sl with
      | some v => jsonRecords v
      | none => []
    | none => []

/-- The response-parsing step of `OpenAIService.extractSpecs` (lines 127–137):
take the first `[...]` slice if present (otherwise the whole text), parse it,
keep arrays, and return `[]` on any parse failure. -/
def openaiParseResponse (content : List Char) : List Json :=
  let jsonStr := (firstBracketSlice content).getD content
  match jsonParseL jsonStr with
  | some v => jsonRecords v
  | none => []

/-- The `confidence` field of a parsed record, when it is a number. -/
def recConfidence (j : Json) : Option ℚ :=
  match j with
  | Json.obj fs =>
    match fs.lookup "confidence" with
    | some (Json.num q) => some q
    | _ => none
  | _ => none

/- ### Error taxonomy of the extraction call

Both services throw plain `Error`s with distinct messages; the distinct throw
sites are modelled as constructors of `ExtractError`. -/

inductive ExtractError where
  | invalidCredentials (msg : String)
  | rateLimited (msg : String)
  | extractionError (msg : String)
deriving DecidableEq

/-- JavaScript `String.prototype.includes`. -/
def jsIncludes (hay sub : String) : Bool :=
  (List.range (hay.data.length + 1)).any
    (fun i => decide ((hay.data.drop i).take sub.data.length = sub.data))

/-- The groq catch handler (groqService.ts lines 166–175): `401`/`invalid_api_key`
messages become the invalid-credentials error, then `429`/`rate_limit` messages
the rate-limited error, anything else the generic wrap of the message. -/
def groqClassifyError (msg : String) : ExtractError :=
  if jsIncludes msg "401" || jsIncludes msg "invalid_api_key" then
    ExtractError.invalidCredentials "Invalid Groq API key. Check GROQ_API_KEY in your .env.local file."
  else if jsIncludes msg "429" || jsIncludes msg "rate_limit" then
    ExtractError.rateLimited "Groq rate limit hit. Wait 30 seconds and try again."
  else ExtractError.extractionError ("LLM extraction failed: " ++ msg)

/-- `GroqService.extractSpecs` as a function of the outcome of the chat
completion call: a failed call (with its message) is classified by the catch
handler; a successful call's content goes through response parsing and never
raises. -/
def groqExtractSpecs (callResult : Except String String) : Except ExtractError (List Json) :=
  match callResult with
  | Except.error msg => Except.error (groqClassifyError msg)
  | Except.ok content => Except.ok (groqParseResponse content.data)

/-- `OpenAIService.extractSpecs` (lines 139–141): every failed call is wrapped
in the generic `LLM extraction failed:` message, with no credential or
rate-limit discrimination; a successful call never raises. -/
def openaiExtractSpecs (callResult : Except String String) : Except ExtractError (List Json) :=
  match callResult with
  | Except.error msg =>
    Except.error (ExtractError.extractionError ("LLM extraction failed: " ++ msg))
  | Except.ok content => Except.ok (openaiParseResponse content.data)

/-- The characters that can begin a JSON value; `parseValue` fails at once on
any other (non-whitespace) first character. -/
def jsonStartChar (c : Char) : Bool :=
  c = lbrace || c = '[' || c = '"' || c = 't' || c = 'f' || c = 'n' || c = '-' || c.isDigit

/-- A markdown code fence with a `json` tag wrapped around a payload. -/
def fenceJson (s : List Char) : List Char :=
  btick :: btick :: btick :: 'j' :: 's' :: 'o' :: 'n' :: '\n' :: (s ++ ['\n', btick, btick, btick])

/- ### Cosine similarity and retrieval (retrieveRelevantChunks)

Embedding components and scores are JavaScript floats; they are modelled by
real numbers.  Both services contain the identical `cosineSimilarity` and
`retrieveRelevantChunks` bodies; one model covers both. -/

/-- The `normA`/`normB` loop accumulator: the sum of squared components. -/
def sumSquares (a : List ℝ) : ℝ := (a.map (fun v => v * v)).sum

/-- The magnitude `‖a‖ = √(Σ aᵢ²)` of a vector. -/
noncomputable def magnitude (a : List ℝ) : ℝ := Real.sqrt (sumSquares a)

/-- The `dot` loop accumulator over the common indices. -/
def dotList (a b : List ℝ) : ℝ := (List.zipWith (fun x y => x * y) a b).sum

/-- `cosineSimilarity` (groqService.ts 80–90, openaiService.ts 72–82): `0` when
the lengths differ or are zero; otherwise `dot / (sqrt normA * sqrt normB)`,
with `0` returned instead when that product is `0`. -/
noncomputable def cosineSimilarity (a b : List ℝ) : ℝ :=
  if a.length ≠ b.length ∨ a.length = 0 then 0
  else
    let mag := Real.sqrt (sumSquares a) * Real.sqrt (sumSquares b)
    if mag = 0 then 0 else dotList a b / mag

structure ScoredChunk where
  chunk : Chunk
  score : ℝ

/-- The retrieval filter `c.embedding && c.embedding.length > 0`. -/
def hasEmbedding (c : Chunk) : Bool :=
  match c.embedding with
  | some e => decide (0 < e.length)
  | none => false

/-- The scored pool: exactly the chunks with a non-empty embedding, each paired
with its cosine similarity to the query embedding, in chunk order. -/
noncomputable def scoredChunks (q : List ℝ) (chunks : List Chunk) : List ScoredChunk :=
  (chunks.filter hasEmbedding).map
    (fun c => { chunk := c, score := cosineSimilarity q (c.embedding.getD []) })

structure RetrievalResult where
  context : String
  scored : List ScoredChunk

/-- `retrieveRelevantChunks` (groqService.ts 92–110, openaiService.ts 57–70) as
a function of the query embedding: filter to embedded chunks, score, stable
sort by descending score, keep the first `k` (default 6), and join the selected
texts with `"\n---\n"` as the context. -/
noncomputable def retrieveRelevantChunks (q : List ℝ) (chunks : List Chunk)
    (k : ℕ := 6) : RetrievalResult :=
  let scored := (sortDescBy (fun sc : ScoredChunk => sc.score) (scoredChunks q chunks)).take k
  { context := String.intercalate "\n---\n" (scored.map (fun sc => sc.chunk.text))
    scored := scored }

/- ### GroqService.getEmbedding (lines 45–73)

The deterministic character-frequency embedding: lowercase, cut to 2000
characters, bump one of 1536 buckets per character bigram, bump one bucket per
`\w+` word with weight 3 for automotive terms, then L2-normalize.  The bucket
counts are exact (`ℚ`); the final normalization is real-valued. -/

/-- `const normalized = text.toLowerCase().slice(0, 2000)`. -/
def jsNormalize (t : String) : List Char := (t.data.map Char.toLower).take 2000

def EMBED_DIM : ℕ := 1536

/-- Bucket indices of the character bigrams:
`(charCodeAt(i) * 31 + charCodeAt(i+1)) % dim` for each adjacent pair. -/
def bigramBuckets : List Char → List ℕ
  | c1 :: c2 :: rest => ((c1.toNat * 31 + c2.toNat) % EMBED_DIM) :: bigramBuckets (c2 :: rest)
  | _ => []

/-- A `\w` regex character: ASCII letter, digit or underscore. -/
def isWordChar (c : Char) : Bool := c.isAlphanum || c = '_'

/-- Maximal runs of word characters (`normalized.match(/\b\w+\b/g)`), with the
input length as recursion fuel. -/
def splitWordsAux : ℕ → List Char → List (List Char)
  | 0, _ => []
  | fuel + 1, cs =>
    match cs.dropWhile (fun c => !isWordChar c) with
    | [] => []
    | rest => rest.takeWhile isWordChar :: splitWordsAux fuel (rest.dropWhile isWordChar)

def splitWords (cs : List Char) : List (List Char) := splitWordsAux cs.length cs

/-- The automotive-term allowlist weighted 3×. -/
def autoTerms : List String :=
  ["torque", "nm", "lb", "ft", "capacity", "pressure", "fluid", "bolt", "nut",
    "spec", "liter", "psi", "clearance"]

/-- JavaScript `| 0`: wrap an exact integer to a signed 32-bit value. -/
def toInt32 (n : ℤ) : ℤ := (n + 2 ^ 31) % 2 ^ 32 - 2 ^ 31

/-- The word hash `hash = ((hash << 5) - hash + charCodeAt(i)) | 0` (the shift
wraps to 32 bits, and so does the `| 0` after the exact add/subtract). -/
def jsHash (w : List Char) : ℤ :=
  w.foldl (fun h c => toInt32 (toInt32 (h * 32) - h + c.toNat)) 0

/-- One `(bucket, weight)` bump per word: `Math.abs(hash) % dim`, weight 3 for
allowlisted words, else 1. -/
def wordBumps (cs : List Char) : List (ℕ × ℚ) :=
  (splitWords cs).map
    (fun w => ((jsHash w).natAbs % EMBED_DIM,
      if autoTerms.contains (String.mk w) then (3 : ℚ) else 1))

/-- Accumulate bumps into the (initially zero) bucket-count vector. -/
def accumBumps (l : List (ℕ × ℚ)) : ℕ → ℚ :=
  l.foldl (fun f p i => if i = p.1 then f i + p.2 else f i) (fun _ => 0)

/-- The un-normalized bucket counts of a normalized text. -/
def rawVector (cs : List Char) : ℕ → ℚ :=
  accumBumps ((bigramBuckets cs).map (fun i => (i, (1 : ℚ))) ++ wordBumps cs)

/-- `Array.from(vector)`: the 1536 bucket counts in index order. -/
def embedComponents (cs : List Char) : List ℚ :=
  (List.range EMBED_DIM).map (rawVector cs)

/-- `GroqService.getEmbedding`: the full pipeline ending in the L2
normalization `norm = Math.sqrt(Σ v²) || 1; v / norm`. -/
noncomputable def groqGetEmbedding (t : String) : List ℝ :=
  let comps : List ℚ := embedComponents (jsNormalize t)
  let norm : ℝ := Real.sqrt ((comps.map (fun q : ℚ => ((q : ℝ) * (q : ℝ)))).sum)
  let divisor : ℝ := if norm = 0 then 1 else norm
  comps.map (fun q : ℚ => ((q : ℝ) / divisor))

/-- `GroqService.retrieveRelevantChunks` proper: the query string is embedded
locally by `getEmbedding` and then retrieval runs on the resulting vector. -/
noncomputable def groqRetrieveRelevantChunks (query : String) (chunks : List Chunk)
    (k : ℕ := 6) : RetrievalResult :=
  retrieveRelevantChunks (groqGetEmbedding query) chunks k

/- ### Properties of the stable sorts -/

theorem insertDescBy_perm {α β : Type} [LinearOrder β] (key : α → β) (x : α) (l : List α) :
    (insertDescBy key x l).Perm (x :: l) := by
  induction l with
  | nil => simp [insertDescBy]
  | cons y ys ih =>
    by_cases h : key y ≤ key x
    · simp [insertDescBy, h]
    · simp only [insertDescBy, if_neg h]
      exact (ih.cons y).trans (List.Perm.swap x y ys)

theorem sortDescBy_perm {α β : Type} [LinearOrder β] (key : α → β) (l : List α) :
    (sortDescBy key l).Perm l := by
  induction l with
  | nil => simp [sortDescBy]
  | cons x xs ih => exact (insertDescBy_perm key x (sortDescBy key xs)).trans (ih.cons x)

theorem insertDescBy_pairwise {α β : Type} [LinearOrder β] (key : α → β) (x : α) {l : List α}
    (h : l.Pairwise (fun a b => key b ≤ key a)) :
    (insertDescBy key x l).Pairwise (fun a b => key b ≤ key a) := by
  induction l with
  | nil => simp [insertDescBy]
  | cons y ys ih =>
    rcases List.pairwise_cons.mp h with ⟨hy, hys⟩
    by_cases hc : key y ≤ key x
    · simp only [insertDescBy, if_pos hc]
      refine List.pairwise_cons.mpr ⟨?_, h⟩
      intro b hb
      rcases List.mem_cons.mp hb with hb | hb
      · exact hb ▸ hc
      · exact le_trans (hy b hb) hc
    · simp only [insertDescBy, if_neg hc]
      refine List.pairwise_cons.mpr ⟨?_, ih hys⟩
      intro b hb
      rcases List.mem_cons.mp ((insertDescBy_perm key x ys).mem_iff.mp hb) with hb | hb
      · exact hb ▸ (not_le.mp hc).le
      · exact hy b hb

theorem sortDescBy_pairwise {α β : Type} [LinearOrder β] (key : α → β) (l : List α) :
    (sortDescBy key l).Pairwise (fun a b => key b ≤ key a) := by
  induction l with
  | nil => simp [sortDescBy]
  | cons x xs ih => exact insertDescBy_pairwise key x ih

theorem filter_insertDescBy {α β : Type} [LinearOrder β] (key : α → β) (x : α) (l : List α)
    (s : β) :
    (insertDescBy key x l).filter (fun a => decide (key a = s)) =
      if key x = s then x :: l.filter (fun a => decide (key a = s))
      else l.filter (fun a => decide (key a = s)) := by
  induction l with
  | nil => by_cases hx : key x = s <;> simp [insertDescBy, List.filter, hx]
  | cons y ys ih =>
    by_cases hc : key y ≤ key x
    · simp only [insertDescBy, if_pos hc]
      by_cases hx : key x = s <;> simp [List.filter_cons, hx]
    · have hlt : key x < key y := not_le.mp hc
      simp only [insertDescBy, if_neg hc]
      by_cases hx : key x = s
      · have hy : ¬ key y = s := fun hys => (ne_of_gt hlt) (hys.trans hx.symm)
        simp [List.filter_cons, hx, hy, ih]
      · simp [List.filter_cons, hx, ih]

theorem filter_sortDescBy {α β : Type} [LinearOrder β] (key : α → β) (l : List α) (s : β) :
    (sortDescBy key l).filter (fun a => decide (key a = s)) =
      l.filter (fun a => decide (key a = s)) := by
  induction l with
  | nil => simp [sortDescBy]
  | cons x xs ih =>
    by_cases hx : key x = s <;>
      simp [sortDescBy, filter_insertDescBy, hx, ih, List.filter_cons]

theorem insertAscBy_perm {α β : Type} [LinearOrder β] (key : α → β) (x : α) (l : List α) :
    (insertAscBy key x l).Perm (x :: l) := by
  induction l with
  | nil => simp [insertAscBy]
  | cons y ys ih =>
    by_cases h : key x ≤ key y
    · simp [insertAscBy, h]
    · simp only [insertAscBy, if_neg h]
      exact (ih.cons y).trans (List.Perm.swap x y ys)

theorem sortAscBy_perm {α β : Type} [LinearOrder β] (key : α → β) (l : List α) :
    (sortAscBy key l).Perm l := by
  induction l with
  | nil => simp [sortAscBy]
  | cons x xs ih => exact (insertAscBy_perm key x (sortAscBy key xs)).trans (ih.cons x)

theorem insertAscBy_pairwise {α β : Type} [LinearOrder β] (key : α → β) (x : α) {l : List α}
    (h : l.Pairwise (fun a b => key a ≤ key b)) :
    (insertAscBy key x l).Pairwise (fun a b => key a ≤ key b) := by
  induction l with
  | nil => simp [insertAscBy]
  | cons y ys ih =>
    rcases List.pairwise_cons.mp h with ⟨hy, hys⟩
    by_cases hc : key x ≤ key y
    · simp only [insertAscBy, if_pos hc]
      refine List.pairwise_cons.mpr ⟨?_, h⟩
      intro b hb
      rcases List.mem_cons.mp hb with hb | hb
      · exact hb ▸ hc
      · exact le_trans hc (hy b hb)
    · simp only [insertAscBy, if_neg hc]
      refine List.pairwise_cons.mpr ⟨?_, ih hys⟩
      intro b hb
      rcases List.mem_cons.mp ((insertAscBy_perm key x ys).mem_iff.mp hb) with hb | hb
      · exact hb ▸ (not_le.mp hc).le
      · exact hy b hb

theorem sortAscBy_pairwise {α β : Type} [LinearOrder β] (key : α → β) (l : List α) :
    (sortAscBy key l).Pairwise (fun a b => key a ≤ key b) := by
  induction l with
  | nil => simp [sortAscBy]
  | cons x xs ih => exact insertAscBy_pairwise key x ih

/- ### Row grouping: first-match clustering (C5) and page layout (C4) -/

theorem addToRow_keys (key : ℤ) (f : Frag) (m : List (ℤ × List Frag)) :
    (addToRow key f m).map Prod.fst = m.map Prod.fst := by
  induction m with
  | nil => rfl
  | cons e rest ih => by_cases h : e.1 = key <;> simp [addToRow, h, ih]

theorem addToRow_append_eq (k : ℤ) (f : Frag) (m₁ m₂ : List (ℤ × List Frag)) (fs : List Frag)
    (h : ∀ e ∈ m₁, e.1 ≠ k) :
    addToRow k f (m₁ ++ (k, fs) :: m₂) = m₁ ++ (k, fs ++ [f]) :: m₂ := by
  induction m₁ with
  | nil => simp [addToRow]
  | cons e rest ih =>
    have he : e.1 ≠ k := h e (List.mem_cons_self e rest)
    show addToRow k f (e :: (rest ++ (k, fs) :: m₂)) = e :: (rest ++ (k, fs ++ [f]) :: m₂)
    simp only [addToRow, if_neg he]
    rw [ih (fun e' he' => h e' (List.mem_cons_of_mem e he'))]

theorem find?_append_of_eq_false {α : Type} {p : α → Bool} {m₁ : List α}
    (h : ∀ e ∈ m₁, p e = false) (m₂ : List α) :
    (m₁ ++ m₂).find? p = m₂.find? p := by
  induction m₁ with
  | nil => rfl
  | cons e rest ih =>
    rw [List.cons_append, List.find?_cons_of_neg _ (by simp [h e (List.mem_cons_self e rest)])]
    exact ih (fun e' he' => h e' (List.mem_cons_of_mem e he'))

/-- C5: each arriving fragment goes to the first existing row (in row-creation
order) whose representative coordinate is within the tolerance of 3 — the first
match found, not the nearest, since the rows after the first match (`m₂`) are
arbitrary and may contain strictly closer keys — and a fragment with no row in
tolerance opens a new row keyed by its own (rounded) coordinate.  `groupRows`
is precisely the fold of this step over the arriving fragments. -/
theorem rowStep_first_match_spec :
    (∀ (m : List (ℤ × List Frag)) (f : Frag),
        (∀ e ∈ m, ¬ (e.1 - jsRound f.y).natAbs < ROW_DELTA.natAbs) →
        rowStep m f = m ++ [(jsRound f.y, [f])]) ∧
    (∀ (m₁ m₂ : List (ℤ × List Frag)) (k : ℤ) (fs : List Frag) (f : Frag),
        (∀ e ∈ m₁, ¬ (e.1 - jsRound f.y).natAbs < ROW_DELTA.natAbs) →
        (k - jsRound f.y).natAbs < ROW_DELTA.natAbs →
        rowStep (m₁ ++ (k, fs) :: m₂) f = m₁ ++ (k, fs ++ [f]) :: m₂) ∧
    (∀ items : List Frag, groupRows items = items.foldl rowStep []) := by
  refine ⟨?_, ?_, fun items => rfl⟩
  · intro m f h
    have hfind : m.find? (fun e => decide ((e.1 - jsRound f.y).natAbs < ROW_DELTA.natAbs))
        = none := by
      rw [List.find?_eq_none]
      intro e he
      simpa using h e he
    simp [rowStep, hfind]
  · intro m₁ m₂ k fs f h hk
    have hne : ∀ e ∈ m₁, e.1 ≠ k := fun e he heq => h e he (heq ▸ hk)
    have hfind : (m₁ ++ (k, fs) :: m₂).find?
        (fun e => decide ((e.1 - jsRound f.y).natAbs < ROW_DELTA.natAbs)) = some (k, fs) := by
      rw [find?_append_of_eq_false (fun e he => by simpa using h e he)]
      exact List.find?_cons_of_pos _ (by simpa using hk)
    simp only [rowStep, hfind]
    exact addToRow_append_eq k f m₁ m₂ fs hne

/-- Witness for C5 at concrete inputs: with rows created in order 100, 102, a
fragment at y = 102 joins the row keyed 100 (|100 − 102| = 2 < 3 is the first
match) even though the row keyed 102 matches exactly; and a fragment with no
row in tolerance opens a new row. -/
theorem rowStep_first_match_witness :
    rowStep [((100 : ℤ), ([] : List Frag)), ((102 : ℤ), ([] : List Frag))]
        ⟨"b", 0, 102⟩ = [((100 : ℤ), [⟨"b", 0, 102⟩]), ((102 : ℤ), ([] : List Frag))] ∧
    rowStep ([] : List (ℤ × List Frag)) ⟨"a", 0, 200⟩ = [((200 : ℤ), [⟨"a", 0, 200⟩])] := by
  have h102 : jsRound (102 : ℚ) = 102 := by with_unfolding_all rfl
  have h200 : jsRound (200 : ℚ) = 200 := by with_unfolding_all rfl
  constructor
  · have h := rowStep_first_match_spec.2.1 [] [((102 : ℤ), ([] : List Frag))] 100 []
      ⟨"b", 0, 102⟩ (by simp)
      (by rw [show (⟨"b", 0, 102⟩ : Frag).y = (102 : ℚ) from rfl, h102]; decide)
    simpa using h
  · have h := rowStep_first_match_spec.1 [] ⟨"a", 0, 200⟩ (by simp)
    rw [h, show (⟨"a", 0, 200⟩ : Frag).y = (200 : ℚ) from rfl, h200]
    rfl

theorem rowStep_keys_nodup {m : List (ℤ × List Frag)} (h : (m.map Prod.fst).Nodup)
    (f : Frag) : ((rowStep m f).map Prod.fst).Nodup := by
  cases hf : m.find? (fun e => decide ((e.1 - jsRound f.y).natAbs < ROW_DELTA.natAbs)) with
  | some e =>
    have hstep : rowStep m f = addToRow e.1 f m := by simp [rowStep, hf]
    rw [hstep, addToRow_keys]
    exact h
  | none =>
    have hstep : rowStep m f = m ++ [(jsRound f.y, [f])] := by simp [rowStep, hf]
    have hy : ∀ a ∈ m.map Prod.fst, a ≠ jsRound f.y := by
      intro a ha heq
      rcases List.mem_map.mp ha with ⟨e, he, rfl⟩
      have hne := List.find?_eq_none.mp hf e he
      refine hne ?_
      simp [heq, ROW_DELTA]
    rw [hstep]
    rw [List.map_append, List.nodup_append]
    refine ⟨h, by simp, ?_⟩
    intro a ha hb
    simp only [List.map_cons, List.map_nil, List.mem_singleton] at hb
    exact hy a ha hb

theorem groupRows_keys_nodup (items : List Frag) :
    ((groupRows items).map Prod.fst).Nodup := by
  suffices h : ∀ m : List (ℤ × List Frag), (m.map Prod.fst).Nodup →
      ((items.foldl rowStep m).map Prod.fst).Nodup by
    exact h [] (by simp)
  induction items with
  | nil => intro m hm; simpa using hm
  | cons f rest ih => intro m hm; exact ih _ (rowStep_keys_nodup hm f)

theorem lookup_self_of_nodup {m : List (ℤ × List Frag)} (h : (m.map Prod.fst).Nodup) :
    ∀ e ∈ m, m.lookup e.1 = some e.2 := by
  induction m with
  | nil => intro e he; simp at he
  | cons e₀ rest ih =>
    obtain ⟨k, v⟩ := e₀
    have hk : k ∉ rest.map Prod.fst := (List.nodup_cons.mp (by simpa using h)).1
    intro e he
    rcases List.mem_cons.mp he with rfl | he'
    · simp [List.lookup]
    · have hne : (e.1 == k) = false := by
        have hmem : e.1 ∈ rest.map Prod.fst := List.mem_map.mpr ⟨e, he', rfl⟩
        simp only [beq_eq_false_iff_ne, ne_eq]
        exact fun heq => hk (heq ▸ hmem)
      rw [List.lookup, hne]
      exact ih (List.nodup_cons.mp (by simpa using h)).2 e he'

theorem assoc_map_keys {m : List (ℤ × List Frag)} (h : (m.map Prod.fst).Nodup) :
    (m.map Prod.fst).map (fun y => (y, (m.lookup y).getD [])) = m := by
  rw [List.map_map]
  have hcong : ∀ e ∈ m, ((fun y => (y, (m.lookup y).getD [])) ∘ Prod.fst) e = id e := by
    intro e he
    simp [Function.comp, lookup_self_of_nodup h e he]
  rw [List.map_congr_left hcong, List.map_id]

/-- C4: page layout reconstruction.  The grouped rows are emitted in strictly
descending order of their representative vertical coordinate; within a row the
fragments are emitted in ascending horizontal order; a row's texts are joined
with a double space and the rows with newlines; and the concrete example of
the spec reconstructs to `"350  Nm\nCam Bolt"`. -/
theorem renderPage_layout_spec (items : List Frag) :
    ∃ rows : List (ℤ × List Frag),
      rows.Perm (groupRows items) ∧
      (rows.map Prod.fst).Pairwise (fun a b => b < a) ∧
      renderPage items =
        String.intercalate "\n"
          ((rows.map (fun r => renderRow r.2)).filter (fun line => !(jsTrim line == ""))) ∧
      (∀ fs : List Frag,
        renderRow fs =
          String.intercalate "  "
            (((sortAscBy (fun f => f.x) fs).map (fun f => jsTrim f.str)).filter
              (fun s => !(s == "")))) ∧
      (∀ fs : List Frag,
        ((sortAscBy (fun f : Frag => f.x) fs).map (fun f => f.x)).Pairwise (· ≤ ·)) ∧
      renderPage [⟨"Nm", 50, 100⟩, ⟨"350", 10, 100⟩, ⟨"Cam Bolt", 5, 40⟩] =
        "350  Nm\nCam Bolt" := by
  set m := groupRows items with hm
  have hnd : (m.map Prod.fst).Nodup := groupRows_keys_nodup items
  refine ⟨(sortDescBy id (m.map Prod.fst)).map (fun y => (y, (m.lookup y).getD [])),
    ?_, ?_, ?_, fun fs => rfl, ?_, ?_⟩
  · have hperm := (sortDescBy_perm id (m.map Prod.fst)).map
      (fun y => (y, (m.lookup y).getD []))
    refine hperm.trans ?_
    rw [assoc_map_keys hnd]
  · have h1 := sortDescBy_pairwise id (m.map Prod.fst)
    have h2 : (sortDescBy id (m.map Prod.fst)).Nodup :=
      ((sortDescBy_perm id (m.map Prod.fst)).symm.nodup) hnd
    have h3 := (h1.and h2)
    have h4 : (sortDescBy id (m.map Prod.fst)).Pairwise (fun a b => b < a) :=
      h3.imp (fun hab => lt_of_le_of_ne hab.1 (Ne.symm hab.2))
    have hmapfst :
        (List.map (fun y => (y, (m.lookup y).getD []))
          (sortDescBy id (m.map Prod.fst))).map Prod.fst =
          sortDescBy id (m.map Prod.fst) := by
      simp [Function.comp_def]
    rw [hmapfst]
    exact h4
  · simp [renderPage, Function.comp_def, ← hm]
  · intro fs
    exact List.pairwise_map.mpr (sortAscBy_pairwise (fun f => f.x) fs)
  · with_unfolding_all rfl

/- ### Chunk selection under budget (C1) -/

/-- C1: the selection of `generateSemanticChunks` keeps at most `maxChunks`
chunks; it is exactly the spec-priority chunks (in generation order) followed
by the first `maxChunks - |spec|` general chunks (in generation order),
truncated to `maxChunks`; when the spec-priority chunks fit the budget the
outer truncation is a no-op, and in that case every spec-priority chunk of the
generated set appears in the final selection. -/
theorem generateSemanticChunks_spec (matchSection : String → Option String)
    (splitSegs : String → List String) (specTest : String → Bool)
    (pages : List PageIn) (maxChunks : ℕ) :
    (generateSemanticChunks matchSection splitSegs specTest pages maxChunks).length ≤ maxChunks ∧
    generateSemanticChunks matchSection splitSegs specTest pages maxChunks =
      (specChunksOf matchSection splitSegs specTest pages ++
        (generalChunksOf matchSection splitSegs specTest pages).take
          (maxChunks - (specChunksOf matchSection splitSegs specTest pages).length)).take
        maxChunks ∧
    ((specChunksOf matchSection splitSegs specTest pages).length ≤ maxChunks →
      generateSemanticChunks matchSection splitSegs specTest pages maxChunks =
        specChunksOf matchSection splitSegs specTest pages ++
          (generalChunksOf matchSection splitSegs specTest pages).take
            (maxChunks - (specChunksOf matchSection splitSegs specTest pages).length)) ∧
    ((specChunksOf matchSection splitSegs specTest pages).length ≤ maxChunks →
      ∀ c ∈ allChunksOf matchSection splitSegs specTest pages, c.isSpecPriority = true →
        c ∈ generateSemanticChunks matchSection splitSegs specTest pages maxChunks) := by
  have h2 : generateSemanticChunks matchSection splitSegs specTest pages maxChunks =
      (specChunksOf matchSection splitSegs specTest pages ++
        (generalChunksOf matchSection splitSegs specTest pages).take
          (maxChunks - (specChunksOf matchSection splitSegs specTest pages).length)).take
        maxChunks := rfl
  have h3 : (specChunksOf matchSection splitSegs specTest pages).length ≤ maxChunks →
      generateSemanticChunks matchSection splitSegs specTest pages maxChunks =
        specChunksOf matchSection splitSegs specTest pages ++
          (generalChunksOf matchSection splitSegs specTest pages).take
            (maxChunks - (specChunksOf matchSection splitSegs specTest pages).length) := by
    intro hle
    have hlen : (specChunksOf matchSection splitSegs specTest pages ++
        (generalChunksOf matchSection splitSegs specTest pages).take
          (maxChunks - (specChunksOf matchSection splitSegs specTest pages).length)).length
        ≤ maxChunks := by
      rw [List.length_append, List.length_take]
      omega
    rw [h2, List.take_of_length_le hlen]
  refine ⟨?_, h2, h3, ?_⟩
  · rw [h2, List.length_take]
    exact min_le_left _ _
  · intro hle c hc hcp
    rw [h3 hle]
    exact List.mem_append_left _ (List.mem_filter.mpr ⟨hc, by simp [hcp]⟩)

/-- Witness for C1: a one-page input with everything spec-priority; the
spec-priority count (1) is within the budget 300, and the selection is the
spec-priority chunks followed by the fitting general chunks. -/
theorem generateSemanticChunks_spec_witness :
    ((specChunksOf (fun _ => none) (fun s => [s]) (fun _ => true)
        [⟨1, "0123456789012345678901234567890"⟩]).length ≤ 300) ∧
    generateSemanticChunks (fun _ => none) (fun s => [s]) (fun _ => true)
        [⟨1, "0123456789012345678901234567890"⟩] 300 =
      specChunksOf (fun _ => none) (fun s => [s]) (fun _ => true)
          [⟨1, "0123456789012345678901234567890"⟩] ++
        (generalChunksOf (fun _ => none) (fun s => [s]) (fun _ => true)
            [⟨1, "0123456789012345678901234567890"⟩]).take
          (300 - (specChunksOf (fun _ => none) (fun s => [s]) (fun _ => true)
              [⟨1, "0123456789012345678901234567890"⟩]).length) := by
  have hlen : (specChunksOf (fun _ => none) (fun s => [s]) (fun _ => true)
      [⟨1, "0123456789012345678901234567890"⟩]).length ≤ 300 := by decide
  exact ⟨hlen, (generateSemanticChunks_spec (fun _ => none) (fun s => [s]) (fun _ => true)
    [⟨1, "0123456789012345678901234567890"⟩] 300).2.2.1 hlen⟩

/- ### Cosine similarity (C8) -/

theorem sumSquares_nonneg (a : List ℝ) : 0 ≤ sumSquares a := by
  refine List.sum_nonneg ?_
  intro x hx
  rcases List.mem_map.mp hx with ⟨v, _, rfl⟩
  exact mul_self_nonneg v

/-- C8: `cosineSimilarity` returns exactly 0 on mismatching dimensions, on
empty vectors, and whenever either magnitude is zero; in the remaining case it
is `dot / (‖a‖ · ‖b‖)`, so the division is always guarded by a nonzero
denominator. -/
theorem cosineSimilarity_spec (a b : List ℝ) :
    (a.length ≠ b.length → cosineSimilarity a b = 0) ∧
    (a = [] → cosineSimilarity a b = 0) ∧
    (magnitude a = 0 ∨ magnitude b = 0 → cosineSimilarity a b = 0) ∧
    (a.length = b.length → a ≠ [] → magnitude a ≠ 0 → magnitude b ≠ 0 →
      cosineSimilarity a b = dotList a b / (magnitude a * magnitude b)) := by
  refine ⟨?_, ?_, ?_, ?_⟩
  · intro h
    rw [cosineSimilarity, if_pos (Or.inl h)]
  · intro h
    rw [cosineSimilarity, if_pos (Or.inr (by simp [h]))]
  · intro h
    by_cases hg : a.length ≠ b.length ∨ a.length = 0
    · rw [cosineSimilarity, if_pos hg]
    · rw [cosineSimilarity, if_neg hg]
      show (if magnitude a * magnitude b = 0 then (0 : ℝ)
        else dotList a b / (magnitude a * magnitude b)) = 0
      have hz : magnitude a * magnitude b = 0 := by
        rcases h with h | h
        · rw [h, zero_mul]
        · rw [h, mul_zero]
      rw [if_pos hz]
  · intro hlen hne hma hmb
    have hg : ¬(a.length ≠ b.length ∨ a.length = 0) := by
      push_neg
      exact ⟨hlen, by simpa using hne⟩
    rw [cosineSimilarity, if_neg hg]
    show (if magnitude a * magnitude b = 0 then (0 : ℝ)
      else dotList a b / (magnitude a * magnitude b)) = dotList a b / (magnitude a * magnitude b)
    rw [if_neg (mul_ne_zero hma hmb)]

/-- Witness for C8: a dimension mismatch scores 0, and `[3]` against `[4]`
scores `12 / (3 · 4) = 1`. -/
theorem cosineSimilarity_spec_witness :
    cosineSimilarity [(1 : ℝ)] [(2 : ℝ), 3] = 0 ∧
    cosineSimilarity [(3 : ℝ)] [(4 : ℝ)] = 1 := by
  have hm3 : magnitude [(3 : ℝ)] = 3 := by
    rw [magnitude, sumSquares]
    norm_num
    rw [show (9 : ℝ) = 3 ^ 2 by norm_num, Real.sqrt_sq (by norm_num : (0 : ℝ) ≤ 3)]
  have hm4 : magnitude [(4 : ℝ)] = 4 := by
    rw [magnitude, sumSquares]
    norm_num
    rw [show (16 : ℝ) = 4 ^ 2 by norm_num, Real.sqrt_sq (by norm_num : (0 : ℝ) ≤ 4)]
  refine ⟨(cosineSimilarity_spec _ _).1 (by simp), ?_⟩
  have h := (cosineSimilarity_spec [(3 : ℝ)] [(4 : ℝ)]).2.2.2 (by simp) (by simp)
    (by rw [hm3]; norm_num) (by rw [hm4]; norm_num)
  rw [h, hm3, hm4, dotList]
  norm_num

/- ### Retrieval: top-k by cosine similarity, stable on ties (C3) -/

/-- C3: `retrieveRelevantChunks` scores exactly the chunks carrying a non-empty
embedding (every selected chunk comes from the input and has one, with its
score the cosine similarity to the query embedding); the selection is in
descending score order; it has `min k N` elements; it is a top-k selection
(the unselected remainder scores no higher than any selected chunk); ties are
resolved stably (within each score class the selection is a prefix of the
original generation order); and the context is the selected texts joined with
`"\n---\n"`. -/
theorem retrieveRelevantChunks_spec (q : List ℝ) (chunks : List Chunk) (k : ℕ) :
    (∀ sc ∈ (retrieveRelevantChunks q chunks k).scored,
        sc.chunk ∈ chunks ∧ hasEmbedding sc.chunk = true ∧
        sc.score = cosineSimilarity q (sc.chunk.embedding.getD [])) ∧
    (retrieveRelevantChunks q chunks k).scored.Pairwise (fun a b => b.score ≤ a.score) ∧
    (retrieveRelevantChunks q chunks k).scored.length = min k (scoredChunks q chunks).length ∧
    (∃ rest : List ScoredChunk,
        ((retrieveRelevantChunks q chunks k).scored ++ rest).Perm (scoredChunks q chunks) ∧
        ∀ a ∈ (retrieveRelevantChunks q chunks k).scored, ∀ b ∈ rest, b.score ≤ a.score) ∧
    (∀ s : ℝ,
        (retrieveRelevantChunks q chunks k).scored.filter (fun sc => decide (sc.score = s))
          <+: (scoredChunks q chunks).filter (fun sc => decide (sc.score = s))) ∧
    (retrieveRelevantChunks q chunks k).context =
      String.intercalate "\n---\n"
        ((retrieveRelevantChunks q chunks k).scored.map (fun sc => sc.chunk.text)) := by
  refine ⟨?_, ?_, ?_, ?_, ?_, rfl⟩
  · intro sc hsc
    have hmem : sc ∈ sortDescBy (fun sc : ScoredChunk => sc.score) (scoredChunks q chunks) :=
      (List.take_sublist k _).subset hsc
    have hpool : sc ∈ scoredChunks q chunks :=
      (sortDescBy_perm (fun sc : ScoredChunk => sc.score) (scoredChunks q chunks)).mem_iff.mp hmem
    rcases List.mem_map.mp hpool with ⟨c, hc, rfl⟩
    rcases List.mem_filter.mp hc with ⟨hcc, hce⟩
    exact ⟨hcc, hce, rfl⟩
  · exact List.Pairwise.sublist (List.take_sublist k _)
      (sortDescBy_pairwise (fun sc : ScoredChunk => sc.score) (scoredChunks q chunks))
  · show ((sortDescBy (fun sc : ScoredChunk => sc.score) (scoredChunks q chunks)).take k).length
      = min k (scoredChunks q chunks).length
    rw [List.length_take,
      (sortDescBy_perm (fun sc : ScoredChunk => sc.score) (scoredChunks q chunks)).length_eq]
  · refine ⟨(sortDescBy (fun sc : ScoredChunk => sc.score) (scoredChunks q chunks)).drop k,
      ?_, ?_⟩
    · show ((sortDescBy (fun sc : ScoredChunk => sc.score) (scoredChunks q chunks)).take k ++
        (sortDescBy (fun sc : ScoredChunk => sc.score) (scoredChunks q chunks)).drop k).Perm
        (scoredChunks q chunks)
      rw [List.take_append_drop]
      exact sortDescBy_perm _ _
    · have hp := sortDescBy_pairwise (fun sc : ScoredChunk => sc.score) (scoredChunks q chunks)
      rw [← List.take_append_drop k
        (sortDescBy (fun sc : ScoredChunk => sc.score) (scoredChunks q chunks))] at hp
      exact fun a ha b hb => (List.pairwise_append.mp hp).2.2 a ha b hb
  · intro s
    have h1 : (sortDescBy (fun sc : ScoredChunk => sc.score) (scoredChunks q chunks)).take k
        <+: sortDescBy (fun sc : ScoredChunk => sc.score) (scoredChunks q chunks) :=
      List.take_prefix k _
    have h2 := h1.filter (fun sc => decide (sc.score = s))
    rwa [filter_sortDescBy (fun sc : ScoredChunk => sc.score) (scoredChunks q chunks) s] at h2

/-- Witness for C3 at a concrete input: on the empty chunk set, the selection
is empty, has length `min 6 0`, and the context is the empty join. -/
theorem retrieveRelevantChunks_spec_witness :
    (retrieveRelevantChunks [] [] 6).scored.length = min 6 (scoredChunks [] []).length ∧
    (retrieveRelevantChunks [] [] 6).context = "" := by
  refine ⟨(retrieveRelevantChunks_spec [] [] 6).2.2.1, ?_⟩
  have h := (retrieveRelevantChunks_spec [] [] 6).2.2.2.2.2
  rw [h]
  have hempty : (retrieveRelevantChunks [] [] 6).scored = [] := by
    simp [retrieveRelevantChunks, scoredChunks, sortDescBy]
  rw [hempty]
  rfl

/- ### The deterministic embedding depends only on the normalized prefix (C10) -/

/-- C10: `GroqService.getEmbedding` depends only on the first 2000 characters
of the lowercased input (`jsNormalize`): any two texts agreeing there embed
identically (in particular the function is deterministic), and the output
always has dimension 1536. -/
theorem embedComponents_length (cs : List Char) : (embedComponents cs).length = 1536 := by
  rw [embedComponents, List.length_map, List.length_range, EMBED_DIM]

theorem groqGetEmbedding_spec (t₁ t₂ : String) (h : jsNormalize t₁ = jsNormalize t₂) :
    groqGetEmbedding t₁ = groqGetEmbedding t₂ ∧ (groqGetEmbedding t₁).length = 1536 := by
  constructor
  · rw [groqGetEmbedding, groqGetEmbedding, h]
  · simp only [groqGetEmbedding]
    rw [List.length_map, embedComponents_length]

/-- Witness for C10: 2000 copies of `a` and the same text with a `B` appended
beyond position 2000 agree after normalization, so they embed identically. -/
theorem groqGetEmbedding_spec_witness :
    groqGetEmbedding (String.mk (List.replicate 2000 'a')) =
      groqGetEmbedding (String.mk (List.replicate 2000 'a' ++ ['B'])) ∧
    (groqGetEmbedding (String.mk (List.replicate 2000 'a'))).length = 1536 := by
  have hnorm : jsNormalize (String.mk (List.replicate 2000 'a')) =
      jsNormalize (String.mk (List.replicate 2000 'a' ++ ['B'])) := by
    show ((List.replicate 2000 'a').map Char.toLower).take 2000 =
      ((List.replicate 2000 'a' ++ ['B']).map Char.toLower).take 2000
    rw [List.map_append, List.take_left' (by rw [List.length_map, List.length_replicate])]
    rw [List.map_replicate, List.take_replicate, Nat.min_self]
  exact groqGetEmbedding_spec _ _ hnorm

/- ### Chunk id uniqueness (C9) -/

theorem toDigitsCore_zero (n : ℕ) (ds : List Char) : Nat.toDigitsCore 10 0 n ds = ds := by
  rw [Nat.toDigitsCore]

theorem toDigitsCore_succ (fuel n : ℕ) (ds : List Char) :
    Nat.toDigitsCore 10 (fuel + 1) n ds =
      if n / 10 = 0 then Nat.digitChar (n % 10) :: ds
      else Nat.toDigitsCore 10 fuel (n / 10) (Nat.digitChar (n % 10) :: ds) := by
  rw [Nat.toDigitsCore]

theorem digitChar_isDigit {n : ℕ} (h : n < 10) : (Nat.digitChar n).isDigit = true := by
  interval_cases n <;> decide

theorem digitChar_val {n : ℕ} (h : n < 10) : (Nat.digitChar n).toNat - 48 = n := by
  interval_cases n <;> decide

theorem toDigitsCore_digits :
    ∀ (fuel n : ℕ) (ds : List Char), (∀ c ∈ ds, c.isDigit = true) → n < fuel →
      ∀ c ∈ Nat.toDigitsCore 10 fuel n ds, c.isDigit = true := by
  intro fuel
  induction fuel with
  | zero => intro n ds hds hn; exact absurd hn (Nat.not_lt_zero n)
  | succ fuel ih =>
    intro n ds hds hn c hc
    rw [toDigitsCore_succ] at hc
    by_cases h0 : n / 10 = 0
    · rw [if_pos h0] at hc
      rcases List.mem_cons.mp hc with rfl | hc
      · exact digitChar_isDigit (Nat.mod_lt n (by norm_num))
      · exact hds c hc
    · rw [if_neg h0] at hc
      refine ih (n / 10) (Nat.digitChar (n % 10) :: ds) ?_ (by omega) c hc
      intro c' hc'
      rcases List.mem_cons.mp hc' with rfl | hc'
      · exact digitChar_isDigit (Nat.mod_lt n (by norm_num))
      · exact hds c' hc'

theorem toDigits_digits (n : ℕ) : ∀ c ∈ Nat.toDigits 10 n, c.isDigit = true :=
  fun c hc => toDigitsCore_digits (n + 1) n [] (by simp) (Nat.lt_succ_self n) c hc

theorem toDigitsCore_append :
    ∀ (fuel n : ℕ) (ds : List Char),
      Nat.toDigitsCore 10 fuel n ds = Nat.toDigitsCore 10 fuel n [] ++ ds := by
  intro fuel
  induction fuel with
  | zero => intro n ds; rw [toDigitsCore_zero, toDigitsCore_zero]; rfl
  | succ fuel ih =>
    intro n ds
    rw [toDigitsCore_succ, toDigitsCore_succ]
    by_cases h0 : n / 10 = 0
    · rw [if_pos h0, if_pos h0]
      rfl
    · rw [if_neg h0, if_neg h0, ih (n / 10) (Nat.digitChar (n % 10) :: ds),
        ih (n / 10) [Nat.digitChar (n % 10)], List.append_assoc]
      rfl

theorem digitsToNat_append (l : List Char) (c : Char) :
    digitsToNat (l ++ [c]) = digitsToNat l * 10 + (c.toNat - 48) := by
  simp [digitsToNat, List.foldl_append]

theorem digitsToNat_toDigitsCore :
    ∀ (fuel n : ℕ), n < fuel → digitsToNat (Nat.toDigitsCore 10 fuel n []) = n := by
  intro fuel
  induction fuel with
  | zero => intro n hn; exact absurd hn (Nat.not_lt_zero n)
  | succ fuel ih =>
    intro n hn
    rw [toDigitsCore_succ]
    by_cases h0 : n / 10 = 0
    · rw [if_pos h0]
      have h10 : n < 10 := by omega
      have hmod : n % 10 = n := Nat.mod_eq_of_lt h10
      rw [hmod]
      interval_cases n <;> decide
    · rw [if_neg h0, toDigitsCore_append, digitsToNat_append, ih (n / 10) (by omega),
        digitChar_val (Nat.mod_lt n (by norm_num))]
      omega

theorem toDigits_ten_inj {a b : ℕ} (h : Nat.toDigits 10 a = Nat.toDigits 10 b) : a = b := by
  have ha : digitsToNat (Nat.toDigits 10 a) = a :=
    digitsToNat_toDigitsCore (a + 1) a (Nat.lt_succ_self a)
  have hb : digitsToNat (Nat.toDigits 10 b) = b :=
    digitsToNat_toDigitsCore (b + 1) b (Nat.lt_succ_self b)
  exact ha.symm.trans ((congrArg digitsToNat h).trans hb)

theorem append_sep_inj {sep : Char} :
    ∀ {xs₁ xs₂ t₁ t₂ : List Char}, sep ∉ xs₁ → sep ∉ xs₂ →
      xs₁ ++ sep :: t₁ = xs₂ ++ sep :: t₂ → xs₁ = xs₂ ∧ t₁ = t₂ := by
  intro xs₁
  induction xs₁ with
  | nil =>
    intro xs₂ t₁ t₂ h1 h2 heq
    cases xs₂ with
    | nil => simpa using heq
    | cons b bs =>
      rw [List.nil_append, List.cons_append] at heq
      injection heq with hb htl
      exact absurd (show sep ∈ b :: bs by rw [hb]; exact List.mem_cons_self b bs) h2
  | cons a as ih =>
    intro xs₂ t₁ t₂ h1 h2 heq
    cases xs₂ with
    | nil =>
      rw [List.cons_append, List.nil_append] at heq
      injection heq with ha htl
      exact absurd (show sep ∈ a :: as by rw [← ha]; exact List.mem_cons_self a as) h1
    | cons b bs =>
      rw [List.cons_append, List.cons_append] at heq
      injection heq with hab htl
      have hres := ih (fun hm => h1 (List.mem_cons_of_mem a hm))
        (fun hm => h2 (List.mem_cons_of_mem b hm)) htl
      exact ⟨by rw [hab, hres.1], hres.2⟩

theorem encodeChunkId_data (p i : ℕ) :
    (encodeChunkId p i).data = 'p' :: (Nat.toDigits 10 p ++ '-' :: 's' :: Nat.toDigits 10 i) := by
  simp [encodeChunkId, String.data_append]
  rfl

theorem encodeChunkId_inj {p₁ i₁ p₂ i₂ : ℕ}
    (h : encodeChunkId p₁ i₁ = encodeChunkId p₂ i₂) : p₁ = p₂ ∧ i₁ = i₂ := by
  have hdata := congrArg String.data h
  rw [encodeChunkId_data, encodeChunkId_data] at hdata
  have htail : Nat.toDigits 10 p₁ ++ '-' :: 's' :: Nat.toDigits 10 i₁ =
      Nat.toDigits 10 p₂ ++ '-' :: 's' :: Nat.toDigits 10 i₂ := by
    injection hdata
  have hnd1 : '-' ∉ Nat.toDigits 10 p₁ := fun hm =>
    absurd (toDigits_digits p₁ '-' hm) (by decide)
  have hnd2 : '-' ∉ Nat.toDigits 10 p₂ := fun hm =>
    absurd (toDigits_digits p₂ '-' hm) (by decide)
  have hsplit := append_sep_inj hnd1 hnd2 htail
  refine ⟨toDigits_ten_inj hsplit.1, toDigits_ten_inj ?_⟩
  have h2 := hsplit.2
  injection h2

theorem pageChunks_ids (splitSegs : String → List String) (specTest : String → Bool)
    (active : String) (p : PageIn) :
    ∀ c ∈ pageChunks splitSegs specTest active p,
      (∃ i : ℕ, c.id = encodeChunkId p.num i) ∧ c.page = p.num := by
  intro c hc
  rcases List.mem_filterMap.mp hc with ⟨pr, _, hsome⟩
  by_cases hlt : (jsTrim pr.2).length < 30
  · rw [if_pos hlt] at hsome
    exact absurd hsome (by simp)
  · rw [if_neg hlt] at hsome
    rcases Option.some.injEq .. ▸ hsome with rfl
    exact ⟨⟨pr.1, rfl⟩, rfl⟩

theorem nodup_filterMap_of_key {l : List (ℕ × String)} {f : ℕ × String → Option Chunk}
    (num : ℕ) (hf : ∀ pr c, f pr = some c → c.id = encodeChunkId num pr.1)
    (hnd : (l.map Prod.fst).Nodup) : ((l.filterMap f).map (fun c => c.id)).Nodup := by
  induction l with
  | nil => simp
  | cons a rest ih =>
    have hnd' : (rest.map Prod.fst).Nodup := (List.nodup_cons.mp (by simpa using hnd)).2
    have hfst : a.1 ∉ rest.map Prod.fst := (List.nodup_cons.mp (by simpa using hnd)).1
    cases hfa : f a with
    | none => simpa [List.filterMap_cons, hfa] using ih hnd'
    | some c =>
      rw [List.filterMap_cons, hfa, List.map_cons]
      refine List.nodup_cons.mpr ⟨?_, ih hnd'⟩
      intro hmem
      rcases List.mem_map.mp hmem with ⟨c', hc', hcc⟩
      rcases List.mem_filterMap.mp hc' with ⟨pr, hpr, hprs⟩
      have h1 := hf a c hfa
      have h2 := hf pr c' hprs
      have hpr1 : pr.1 = a.1 := (encodeChunkId_inj (h2.symm.trans (hcc.trans h1))).2
      exact hfst (hpr1 ▸ List.mem_map.mpr ⟨pr, hpr, rfl⟩)

theorem pageChunks_ids_nodup (splitSegs : String → List String) (specTest : String → Bool)
    (active : String) (p : PageIn) :
    ((pageChunks splitSegs specTest active p).map (fun c => c.id)).Nodup := by
  refine nodup_filterMap_of_key p.num ?_ ?_
  · intro pr c hsome
    by_cases hlt : (jsTrim pr.2).length < 30
    · rw [if_pos hlt] at hsome
      exact absurd hsome (by simp)
    · rw [if_neg hlt] at hsome
      rcases Option.some.injEq .. ▸ hsome with rfl
      rfl
  · rw [List.enum_map_fst]
    exact List.nodup_range _

theorem chunkPages_page_mem (matchSection : String → Option String)
    (splitSegs : String → List String) (specTest : String → Bool) :
    ∀ (pages : List PageIn) (active : String),
      ∀ c ∈ chunkPages matchSection splitSegs specTest active pages,
        c.page ∈ pages.map PageIn.num := by
  intro pages
  induction pages with
  | nil => intro active c hc; exact absurd hc (by simp [chunkPages])
  | cons p ps ih =>
    intro active c hc
    rw [chunkPages] at hc
    rcases List.mem_append.mp hc with hc | hc
    · rw [List.map_cons, (pageChunks_ids splitSegs specTest _ p c hc).2]
      exact List.mem_cons_self _ _
    · exact List.mem_cons_of_mem _ (ih _ c hc)

theorem chunkPages_ids_shape (matchSection : String → Option String)
    (splitSegs : String → List String) (specTest : String → Bool) :
    ∀ (pages : List PageIn) (active : String),
      ∀ c ∈ chunkPages matchSection splitSegs specTest active pages,
        ∃ i : ℕ, c.id = encodeChunkId c.page i := by
  intro pages
  induction pages with
  | nil => intro active c hc; exact absurd hc (by simp [chunkPages])
  | cons p ps ih =>
    intro active c hc
    rw [chunkPages] at hc
    rcases List.mem_append.mp hc with hc | hc
    · rcases pageChunks_ids splitSegs specTest _ p c hc with ⟨⟨i, hid⟩, hpage⟩
      exact ⟨i, by rw [hid, hpage]⟩
    · exact ih _ c hc

theorem chunkPages_ids_nodup (matchSection : String → Option String)
    (splitSegs : String → List String) (specTest : String → Bool) :
    ∀ (pages : List PageIn), (pages.map PageIn.num).Nodup →
      ∀ active : String,
        ((chunkPages matchSection splitSegs specTest active pages).map (fun c => c.id)).Nodup := by
  intro pages
  induction pages with
  | nil => intro _ active; simp [chunkPages]
  | cons p ps ih =>
    intro h active
    have h' := h
    rw [List.map_cons] at h'
    have hnums := List.nodup_cons.mp h'
    rw [chunkPages, List.map_append, List.nodup_append]
    refine ⟨pageChunks_ids_nodup splitSegs specTest _ p, ih hnums.2 _, ?_⟩
    intro x hx1 hx2
    rcases List.mem_map.mp hx1 with ⟨c1, hc1, rfl⟩
    rcases List.mem_map.mp hx2 with ⟨c2, hc2, hid⟩
    rcases pageChunks_ids splitSegs specTest _ p c1 hc1 with ⟨⟨i1, hid1⟩, hp1⟩
    rcases chunkPages_ids_shape matchSection splitSegs specTest ps _ c2 hc2 with ⟨i2, hid2⟩
    have hpage2 : c2.page ∈ ps.map PageIn.num :=
      chunkPages_page_mem matchSection splitSegs specTest ps _ c2 hc2
    have heq : encodeChunkId c2.page i2 = encodeChunkId p.num i1 := by
      rw [← hid2, ← hid1, hid]
    have hcp : c2.page = p.num := (encodeChunkId_inj heq).1
    rw [hcp] at hpage2
    exact hnums.1 hpage2

/-- C9: when the input page numbers are pairwise distinct, the chunks returned
by `generateSemanticChunks` carry pairwise distinct ids, and every returned
chunk's id is `p<page>-s<segmentIndex>` for its page number and some segment
index of that page. -/
theorem generateSemanticChunks_ids_nodup (matchSection : String → Option String)
    (splitSegs : String → List String) (specTest : String → Bool)
    (pages : List PageIn) (maxChunks : ℕ) (h : (pages.map PageIn.num).Nodup) :
    ((generateSemanticChunks matchSection splitSegs specTest pages maxChunks).map
      (fun c => c.id)).Nodup ∧
    (∀ c ∈ generateSemanticChunks matchSection splitSegs specTest pages maxChunks,
      ∃ i : ℕ, c.id = encodeChunkId c.page i) := by
  have hall : ((allChunksOf matchSection splitSegs specTest pages).map (fun c => c.id)).Nodup :=
    chunkPages_ids_nodup matchSection splitSegs specTest pages h _
  have hmemAll : ∀ c ∈ generateSemanticChunks matchSection splitSegs specTest pages maxChunks,
      c ∈ allChunksOf matchSection splitSegs specTest pages := by
    intro c hc
    have hc' : c ∈ specChunksOf matchSection splitSegs specTest pages ++
        (generalChunksOf matchSection splitSegs specTest pages).take
          (maxChunks - (specChunksOf matchSection splitSegs specTest pages).length) :=
      (List.take_sublist _ _).subset hc
    rcases List.mem_append.mp hc' with hc' | hc'
    · exact (List.mem_filter.mp hc').1
    · exact (List.mem_filter.mp ((List.take_sublist _ _).subset hc')).1
  constructor
  · have hspec : ((specChunksOf matchSection splitSegs specTest pages).map
        (fun c => c.id)).Nodup :=
      ((List.filter_sublist _).map (fun c : Chunk => c.id)).nodup hall
    have hgen : (((generalChunksOf matchSection splitSegs specTest pages).take
        (maxChunks - (specChunksOf matchSection splitSegs specTest pages).length)).map
        (fun c => c.id)).Nodup :=
      (((List.take_sublist _ _).trans (List.filter_sublist _)).map
        (fun c : Chunk => c.id)).nodup hall
    have happ : (((specChunksOf matchSection splitSegs specTest pages) ++
        (generalChunksOf matchSection splitSegs specTest pages).take
          (maxChunks - (specChunksOf matchSection splitSegs specTest pages).length)).map
        (fun c => c.id)).Nodup := by
      rw [List.map_append, List.nodup_append]
      refine ⟨hspec, hgen, ?_⟩
      intro x hx1 hx2
      rcases List.mem_map.mp hx1 with ⟨c1, hc1, rfl⟩
      rcases List.mem_map.mp hx2 with ⟨c2, hc2, hid⟩
      have hm1 : c1 ∈ allChunksOf matchSection splitSegs specTest pages :=
        (List.mem_filter.mp hc1).1
      have hm2 : c2 ∈ allChunksOf matchSection splitSegs specTest pages :=
        (List.mem_filter.mp ((List.take_sublist _ _).subset hc2)).1
      have hcc : c2 = c1 := List.inj_on_of_nodup_map hall hm2 hm1 hid
      have hflag1 : c1.isSpecPriority = true := by
        simpa using (List.mem_filter.mp hc1).2
      have hflag2 : (!c2.isSpecPriority) = true :=
        (List.mem_filter.mp ((List.take_sublist _ _).subset hc2)).2
      rw [hcc, hflag1] at hflag2
      exact absurd hflag2 (by decide)
    exact ((List.take_sublist _ _).map (fun c : Chunk => c.id)).nodup happ
  · intro c hc
    exact chunkPages_ids_shape matchSection splitSegs specTest pages _ c (hmemAll c hc)

/-- Witness for C9: two pages with distinct numbers 1 and 2 yield chunks with
pairwise distinct ids of the documented shape. -/
theorem generateSemanticChunks_ids_nodup_witness :
    (([(⟨1, "0123456789012345678901234567890"⟩ : PageIn),
        ⟨2, "0123456789012345678901234567890"⟩].map PageIn.num).Nodup) ∧
    ((generateSemanticChunks (fun _ => none) (fun s => [s]) (fun _ => true)
        [⟨1, "0123456789012345678901234567890"⟩,
          ⟨2, "0123456789012345678901234567890"⟩] 300).map (fun c => c.id)).Nodup := by
  have hnd : (([(⟨1, "0123456789012345678901234567890"⟩ : PageIn),
      ⟨2, "0123456789012345678901234567890"⟩].map PageIn.num).Nodup) := by decide
  exact ⟨hnd, (generateSemanticChunks_ids_nodup (fun _ => none) (fun s => [s]) (fun _ => true)
    [⟨1, "0123456789012345678901234567890"⟩, ⟨2, "0123456789012345678901234567890"⟩]
    300 hnd).1⟩

/- ### Confidence handling of extractSpecs (C2) -/

/-- Counterexample to C2 as stated: a model response containing a record with
`confidence: 0.3` is parsed, and the record — whose confidence 3/10 is below
the 1/2 floor — is returned by the pipeline unchanged: no pipeline-level
filter removes it. -/
theorem extractSpecs_confidence_counterexample :
    (groqParseResponse "[\x7b\"confidence\": 0.3\x7d]".data).map recConfidence =
      [some ((3 : ℚ) / 10)] ∧ ((3 : ℚ) / 10) < 1 / 2 := by
  constructor
  · with_unfolding_all rfl
  · norm_num

/-- C2 amended: the response-parsing steps of both services return the parsed
array exactly as the model produced it — there is no pipeline-level confidence
filter, so a record with confidence below 0.5 is emitted whenever the model
emits one; the 0.5 floor exists only as an instruction in the prompt. -/
theorem extractSpecs_no_confidence_filter :
    (∀ (content : List Char) (xs : List Json),
        jsonParseL (groqClean content) = some (Json.arr xs) →
        groqParseResponse content = xs) ∧
    (∀ (content : List Char) (xs : List Json),
        jsonParseL ((firstBracketSlice content).getD content) = some (Json.arr xs) →
        openaiParseResponse content = xs) := by
  constructor
  · intro content xs h
    simp [groqParseResponse, h, jsonRecords]
  · intro content xs h
    simp [openaiParseResponse, h, jsonRecords]

/-- Witness for the amended C2: the low-confidence record of the
counterexample input is returned as-is by the groq pipeline, and an array
response is returned as-is by the openai pipeline. -/
theorem extractSpecs_no_confidence_filter_witness :
    groqParseResponse "[\x7b\"confidence\": 0.3\x7d]".data =
      [Json.obj [("confidence", Json.num ((3 : ℚ) / 10))]] ∧
    openaiParseResponse "[true]".data = [Json.bool true] := by
  constructor
  · exact extractSpecs_no_confidence_filter.1 _ _ (by with_unfolding_all rfl)
  · exact extractSpecs_no_confidence_filter.2 _ _ (by with_unfolding_all rfl)

/- ### Error taxonomy of extractSpecs (C7) -/

/-- Counterexample to C7 as stated: in `OpenAIService.extractSpecs` an
authentication failure (a call error mentioning 401) is surfaced as the
generic extraction error, not as an invalid-credentials error. -/
theorem openaiExtractSpecs_counterexample :
    openaiExtractSpecs (Except.error "401 Unauthorized") =
      Except.error (ExtractError.extractionError
        ("LLM extraction failed: " ++ "401 Unauthorized")) := rfl

/-- C7 amended: `GroqService.extractSpecs` classifies call failures by message
(401/invalid_api_key → invalid credentials; otherwise 429/rate_limit → rate
limited; otherwise the generic wrap of the underlying message), while
`OpenAIService.extractSpecs` wraps every call failure in the generic
extraction error with no credential or rate-limit discrimination; in both
services a completed call never raises — parse failures resolve to a record
list, never to an error. -/
theorem extractSpecs_error_taxonomy :
    (∀ msg : String, (jsIncludes msg "401" || jsIncludes msg "invalid_api_key") = true →
        groqExtractSpecs (Except.error msg) = Except.error (ExtractError.invalidCredentials
          "Invalid Groq API key. Check GROQ_API_KEY in your .env.local file.")) ∧
    (∀ msg : String, (jsIncludes msg "401" || jsIncludes msg "invalid_api_key") = false →
        (jsIncludes msg "429" || jsIncludes msg "rate_limit") = true →
        groqExtractSpecs (Except.error msg) = Except.error (ExtractError.rateLimited
          "Groq rate limit hit. Wait 30 seconds and try again.")) ∧
    (∀ msg : String, (jsIncludes msg "401" || jsIncludes msg "invalid_api_key") = false →
        (jsIncludes msg "429" || jsIncludes msg "rate_limit") = false →
        groqExtractSpecs (Except.error msg) = Except.error (ExtractError.extractionError
          ("LLM extraction failed: " ++ msg))) ∧
    (∀ msg : String, openaiExtractSpecs (Except.error msg) =
        Except.error (ExtractError.extractionError ("LLM extraction failed: " ++ msg))) ∧
    (∀ content : String,
        (∃ recs, groqExtractSpecs (Except.ok content) = Except.ok recs) ∧
        (∃ recs, openaiExtractSpecs (Except.ok content) = Except.ok recs)) := by
  refine ⟨?_, ?_, ?_, fun msg => rfl, fun content => ⟨⟨_, rfl⟩, ⟨_, rfl⟩⟩⟩
  · intro msg h
    simp [groqExtractSpecs, groqClassifyError, h]
  · intro msg h1 h2
    simp [groqExtractSpecs, groqClassifyError, h1, h2]
  · intro msg h1 h2
    simp [groqExtractSpecs, groqClassifyError, h1, h2]

/-- Witness for the amended C7 at concrete messages. -/
theorem extractSpecs_error_taxonomy_witness :
    groqExtractSpecs (Except.error "HTTP 401") =
      Except.error (ExtractError.invalidCredentials
        "Invalid Groq API key. Check GROQ_API_KEY in your .env.local file.") ∧
    groqExtractSpecs (Except.error "rate_limit reached") =
      Except.error (ExtractError.rateLimited
        "Groq rate limit hit. Wait 30 seconds and try again.") ∧
    groqExtractSpecs (Except.error "boom") =
      Except.error (ExtractError.extractionError ("LLM extraction failed: " ++ "boom")) ∧
    openaiExtractSpecs (Except.error "boom") =
      Except.error (ExtractError.extractionError ("LLM extraction failed: " ++ "boom")) ∧
    (∃ recs, groqExtractSpecs (Except.ok "not json") = Except.ok recs) :=
  ⟨extractSpecs_error_taxonomy.1 "HTTP 401" (by decide),
    extractSpecs_error_taxonomy.2.1 "rate_limit reached" (by decide) (by decide),
    extractSpecs_error_taxonomy.2.2.1 "boom" (by decide) (by decide),
    extractSpecs_error_taxonomy.2.2.2.1 "boom",
    (extractSpecs_error_taxonomy.2.2.2.2 "not json").1⟩

/- ### Malformed-response resilience of the extractors (C6) -/

theorem dropWhile_ws_cons {c : Char} (hc : Char.isWhitespace c = false) (rest : List Char) :
    List.dropWhile Char.isWhitespace (c :: rest) = c :: rest := by
  simp [List.dropWhile_cons, hc]

theorem dropTrailingWs_eq_self {l : List Char} {d : Char} (h : l.getLast? = some d)
    (hd : Char.isWhitespace d = false) : dropTrailingWs l = l := by
  rw [dropTrailingWs]
  cases hrev : l.reverse with
  | nil =>
    rw [← List.head?_reverse, hrev] at h
    exact absurd h (by simp)
  | cons x r =>
    have hx : x = d := by
      have hh := List.head?_reverse l
      rw [hrev, h] at hh
      simpa using hh
    subst hx
    rw [dropWhile_ws_cons hd, ← hrev, List.reverse_reverse]

theorem trimL_eq_self {l : List Char} {c d : Char} {r : List Char} (hl : l = c :: r)
    (hc : Char.isWhitespace c = false) (hd : l.getLast? = some d)
    (hww : Char.isWhitespace d = false) : trimL l = l := by
  rw [trimL, hl, dropWhile_ws_cons hc, ← hl, dropTrailingWs_eq_self hd hww]

theorem trimL_cons {c : Char} (hc : Char.isWhitespace c = false) (rest : List Char) :
    ∃ z : List Char, trimL (c :: rest) = c :: z ∧ ∀ x ∈ z, x ∈ rest := by
  rw [trimL, dropWhile_ws_cons hc, dropTrailingWs]
  rw [show (c :: rest).reverse = rest.reverse ++ [c] by simp]
  rw [List.dropWhile_append]
  by_cases hemp : (rest.reverse.dropWhile Char.isWhitespace).isEmpty = true
  · rw [if_pos hemp]
    exact ⟨[], by simp [List.dropWhile_cons, hc], by simp⟩
  · rw [if_neg hemp]
    refine ⟨(rest.reverse.dropWhile Char.isWhitespace).reverse, by simp, ?_⟩
    intro x hx
    rw [List.mem_reverse] at hx
    exact List.mem_reverse.mp ((List.dropWhile_sublist Char.isWhitespace).subset hx)

theorem stripLeadFence_of_head (c : Char) (r : List Char) (hc : c ≠ btick) :
    stripLeadFence (c :: r) = c :: r := by
  cases r with
  | nil => rfl
  | cons c2 r2 =>
    cases r2 with
    | nil => rfl
    | cons c3 r3 =>
      show (if c = btick ∧ c2 = btick ∧ c3 = btick then
          (if (r3.take 4).map Char.toLower = ['j', 's', 'o', 'n'] then
            (r3.drop 4).dropWhile Char.isWhitespace
          else r3.dropWhile Char.isWhitespace)
        else c :: c2 :: c3 :: r3) = c :: c2 :: c3 :: r3
      rw [if_neg (fun hbt => hc hbt.1)]

theorem stripTrailFence_of_last {l : List Char} {c1 : Char} {r : List Char}
    (h : l.reverse = c1 :: r) (hc : c1 ≠ btick) : stripTrailFence l = l := by
  rw [stripTrailFence, h]
  cases r with
  | nil => rfl
  | cons c2 r2 =>
    cases r2 with
    | nil => rfl
    | cons c3 r3 =>
      show (if c1 = btick ∧ c2 = btick ∧ c3 = btick
        then (List.dropWhile Char.isWhitespace r3).reverse else l) = l
      rw [if_neg (fun hbt => hc hbt.1)]

theorem firstBracketSlice_none {l : List Char} (h : '[' ∉ l) : firstBracketSlice l = none := by
  have hd : l.dropWhile (fun c => decide (c ≠ '[')) = [] := by
    rw [List.dropWhile_eq_nil_iff]
    intro x hx
    have hne : x ≠ '[' := fun heq => h (heq ▸ hx)
    simp [hne]
  simp only [firstBracketSlice]
  rw [hd]
  simp

theorem reverse_eq_cons_of_getLast {s : List Char} {d : Char} (h : s.getLast? = some d) :
    ∃ r, s.reverse = d :: r := by
  cases hrev : s.reverse with
  | nil =>
    rw [← List.head?_reverse, hrev] at h
    exact absurd h (by simp)
  | cons x r =>
    have hx : x = d := by
      have hh := List.head?_reverse s
      rw [hrev, h] at hh
      simpa using hh
    subst hx
    exact ⟨r, rfl⟩

theorem firstBracketSlice_start {s s₁ : List Char} (hsh : s = '[' :: s₁)
    (hsl : s.getLast? = some ']') : ∀ {prose : List Char}, '[' ∉ prose →
      firstBracketSlice (prose ++ s) = some s := by
  intro prose hpr
  have hdp : prose.dropWhile (fun c => decide (c ≠ '[')) = [] := by
    rw [List.dropWhile_eq_nil_iff]
    intro x hx
    have hne : x ≠ '[' := fun heq => hpr (heq ▸ hx)
    simp [hne]
  have hds : (prose ++ s).dropWhile (fun c => decide (c ≠ '[')) = s := by
    rw [List.dropWhile_append, hdp]
    simp [hsh, List.dropWhile_cons]
  obtain ⟨r, hr⟩ := reverse_eq_cons_of_getLast hsl
  have hdr : s.reverse.dropWhile (fun c => decide (c ≠ ']')) = s.reverse := by
    rw [hr]
    simp [List.dropWhile_cons]
  simp only [firstBracketSlice]
  rw [hds, if_neg (by simp [hsh]), hdr, if_neg (by rw [hr]; simp), List.reverse_reverse]

theorem parseValue_none_of_bad_head (fuel : ℕ) {cs : List Char} {c : Char} {rest : List Char}
    (hdrop : List.dropWhile Char.isWhitespace cs = c :: rest) (hbad : jsonStartChar c = false) :
    parseValue fuel cs = none := by
  have hb := hbad
  simp only [jsonStartChar, Bool.or_eq_false_iff, decide_eq_false_iff_not] at hb
  obtain ⟨⟨⟨⟨⟨⟨⟨h1, h2⟩, h3⟩, h4⟩, h5⟩, h6⟩, h7⟩, h8⟩ := hb
  cases fuel with
  | zero => rfl
  | succ fuel =>
    simp only [parseValue, hdrop]
    rw [if_neg h2, if_neg h1, if_neg h3, if_neg h4, if_neg h5, if_neg h6,
      if_neg (by simp [h7, h8])]

theorem jsonParseL_none_of_bad_head {cs : List Char} {c : Char} {rest : List Char}
    (hdrop : List.dropWhile Char.isWhitespace cs = c :: rest) (hbad : jsonStartChar c = false) :
    jsonParseL cs = none := by
  rw [jsonParseL, parseValue_none_of_bad_head _ hdrop hbad]

theorem firstBracketSlice_mid {s s₁ : List Char} (hsh : s = '[' :: s₁)
    (hsl : s.getLast? = some ']') (prose tail : List Char)
    (hpr : '[' ∉ prose) (htl : ']' ∉ tail) :
    firstBracketSlice (prose ++ (s ++ tail)) = some s := by
  have hdp : prose.dropWhile (fun c => decide (c ≠ '[')) = [] := by
    rw [List.dropWhile_eq_nil_iff]
    intro x hx
    have hne : x ≠ '[' := fun heq => hpr (heq ▸ hx)
    simp [hne]
  have hds : (prose ++ (s ++ tail)).dropWhile (fun c => decide (c ≠ '[')) = s ++ tail := by
    rw [List.dropWhile_append, hdp]
    simp [hsh, List.dropWhile_cons]
  obtain ⟨r, hr⟩ := reverse_eq_cons_of_getLast hsl
  have hdt : tail.reverse.dropWhile (fun c => decide (c ≠ ']')) = [] := by
    rw [List.dropWhile_eq_nil_iff]
    intro x hx
    have hne : x ≠ ']' := fun heq => htl (heq ▸ List.mem_reverse.mp hx)
    simp [hne]
  have hdr : (s ++ tail).reverse.dropWhile (fun c => decide (c ≠ ']')) = s.reverse := by
    rw [List.reverse_append, List.dropWhile_append, hdt]
    rw [if_pos (by simp)]
    rw [hr]
    simp [List.dropWhile_cons]
  simp only [firstBracketSlice]
  rw [hds, if_neg (by rw [hsh]; simp), hdr, if_neg (by rw [hr]; simp), List.reverse_reverse]

theorem groqClean_fence {s s₁ : List Char} (hsh : s = '[' :: s₁)
    (hsl : s.getLast? = some ']') : groqClean (fenceJson s) = s := by
  have hwsb : Char.isWhitespace btick = false := by decide
  have hfence_split : fenceJson s =
      (btick :: btick :: btick :: 'j' :: 's' :: 'o' :: 'n' :: '\n' ::
        (s ++ ['\n', btick, btick])) ++ [btick] := by
    simp [fenceJson]
  have hlast : (fenceJson s).getLast? = some btick := by
    rw [hfence_split, List.getLast?_concat]
  have htrim1 : trimL (fenceJson s) = fenceJson s := trimL_eq_self rfl hwsb hlast hwsb
  have hlead : stripLeadFence (fenceJson s) = s ++ ['\n', btick, btick, btick] := by
    show stripLeadFence (btick :: btick :: btick :: 'j' :: 's' :: 'o' :: 'n' :: '\n' ::
      (s ++ ['\n', btick, btick, btick])) = s ++ ['\n', btick, btick, btick]
    rw [hsh]
    rfl
  have htrail : stripTrailFence (s ++ ['\n', btick, btick, btick]) = s := by
    have hrev : (s ++ ['\n', btick, btick, btick]).reverse =
        btick :: btick :: btick :: '\n' :: s.reverse := by simp
    obtain ⟨r, hr⟩ := reverse_eq_cons_of_getLast hsl
    rw [stripTrailFence, hrev]
    show (if btick = btick ∧ btick = btick ∧ btick = btick
      then (List.dropWhile Char.isWhitespace ('\n' :: s.reverse)).reverse
      else s ++ ['\n', btick, btick, btick]) = s
    rw [if_pos ⟨rfl, rfl, rfl⟩,
      show List.dropWhile Char.isWhitespace ('\n' :: s.reverse) =
        List.dropWhile Char.isWhitespace s.reverse from by simp [List.dropWhile_cons],
      hr, dropWhile_ws_cons (by decide), ← hr, List.reverse_reverse]
  have htrims : trimL s = s := trimL_eq_self hsh (by decide) hsl (by decide)
  show trimL (stripTrailFence (stripLeadFence
    (if trimL (fenceJson s) = [] then ['[', ']'] else trimL (fenceJson s)))) = s
  rw [htrim1, if_neg (by simp [fenceJson]), hlead, htrail, htrims]

theorem groqClean_prose {s prose prest : List Char} {c : Char}
    (hsl : s.getLast? = some ']')
    (hp : prose = c :: prest) (hws : Char.isWhitespace c = false) (hbt : c ≠ btick) :
    groqClean (prose ++ s) = prose ++ s := by
  have hlast : (prose ++ s).getLast? = some ']' := by
    rw [List.getLast?_append, hsl]
    rfl
  have hshape : prose ++ s = c :: (prest ++ s) := by rw [hp]; rfl
  have htrim : trimL (prose ++ s) = prose ++ s := trimL_eq_self hshape hws hlast (by decide)
  have hlead : stripLeadFence (prose ++ s) = prose ++ s := by
    rw [hshape]
    exact stripLeadFence_of_head c _ hbt
  obtain ⟨rr, hrr⟩ := reverse_eq_cons_of_getLast hlast
  have htrail : stripTrailFence (prose ++ s) = prose ++ s :=
    stripTrailFence_of_last hrr (by decide)
  show trimL (stripTrailFence (stripLeadFence
    (if trimL (prose ++ s) = [] then ['[', ']'] else trimL (prose ++ s)))) = prose ++ s
  rw [htrim, if_neg (by rw [hshape]; simp), hlead, htrail, htrim]

theorem groqClean_plain {trest : List Char} {c : Char}
    (hws : Char.isWhitespace c = false) (hbtick : btick ∉ c :: trest) :
    ∃ z : List Char, groqClean (c :: trest) = c :: z ∧ ∀ x ∈ z, x ∈ c :: trest := by
  obtain ⟨z, hz, hzm⟩ := trimL_cons hws trest
  have hcb : c ≠ btick := fun h => hbtick (h ▸ List.mem_cons_self c trest)
  have hlead : stripLeadFence (c :: z) = c :: z := stripLeadFence_of_head c z hcb
  have hlastmem : ∃ d rr, (c :: z).reverse = d :: rr ∧ d ∈ c :: trest := by
    cases hrev : (c :: z).reverse with
    | nil => exact absurd (congrArg List.length hrev) (by simp)
    | cons d rr =>
      refine ⟨d, rr, rfl, ?_⟩
      have hdm : d ∈ (c :: z).reverse := by rw [hrev]; exact List.mem_cons_self d rr
      rcases List.mem_cons.mp (List.mem_reverse.mp hdm) with rfl | hmem
      · exact List.mem_cons_self _ _
      · exact List.mem_cons_of_mem _ (hzm d hmem)
  obtain ⟨d, rr, hrev, hdmem⟩ := hlastmem
  have htrail : stripTrailFence (c :: z) = c :: z :=
    stripTrailFence_of_last hrev (fun h => hbtick (h ▸ hdmem))
  obtain ⟨z2, hz2, hz2m⟩ := trimL_cons hws z
  refine ⟨z2, ?_, fun x hx => List.mem_cons_of_mem c (hzm x (hz2m x hx))⟩
  show trimL (stripTrailFence (stripLeadFence
    (if trimL (c :: trest) = [] then ['[', ']'] else trimL (c :: trest)))) = c :: z2
  rw [hz, if_neg (by simp), hlead, htrail, hz2]

/-- C6: the response-parsing step never raises (it is a total function into
record lists) and recovers structured content: a valid JSON array wrapped in a
markdown ```json fence is recovered by both services; a valid JSON array block
preceded by leading prose is recovered by both services; and wholly non-JSON
text yields the empty record list in both services. -/
theorem extractSpecs_parse_resilience :
    (∀ (s s₁ : List Char) (xs : List Json),
        jsonParseL s = some (Json.arr xs) → s = '[' :: s₁ → s.getLast? = some ']' →
        groqParseResponse (fenceJson s) = xs ∧ openaiParseResponse (fenceJson s) = xs) ∧
    (∀ (s s₁ prose prest : List Char) (c : Char) (xs : List Json),
        jsonParseL s = some (Json.arr xs) → s = '[' :: s₁ → s.getLast? = some ']' →
        prose = c :: prest → Char.isWhitespace c = false → jsonStartChar c = false →
        c ≠ btick → '[' ∉ prose →
        groqParseResponse (prose ++ s) = xs ∧ openaiParseResponse (prose ++ s) = xs) ∧
    (∀ (trest : List Char) (c : Char),
        Char.isWhitespace c = false → jsonStartChar c = false →
        '[' ∉ c :: trest → btick ∉ c :: trest →
        groqParseResponse (c :: trest) = [] ∧ openaiParseResponse (c :: trest) = []) := by
  refine ⟨?_, ?_, ?_⟩
  · intro s s₁ xs hparse hsh hsl
    have hclean := groqClean_fence hsh hsl
    have hslice : firstBracketSlice (fenceJson s) = some s := by
      have hform : fenceJson s =
          [btick, btick, btick, 'j', 's', 'o', 'n', '\n'] ++ (s ++ ['\n', btick, btick, btick]) :=
        rfl
      rw [hform]
      exact firstBracketSlice_mid hsh hsl _ _ (by decide) (by decide)
    constructor
    · simp [groqParseResponse, hclean, hparse, jsonRecords]
    · simp [openaiParseResponse, hslice, hparse, jsonRecords]
  · intro s s₁ prose prest c xs hparse hsh hsl hp hws hstart hbt hbr
    have hclean := groqClean_prose hsl hp hws hbt
    have hshape : prose ++ s = c :: (prest ++ s) := by rw [hp]; rfl
    have hdrop : List.dropWhile Char.isWhitespace (prose ++ s) = c :: (prest ++ s) := by
      rw [hshape]
      exact dropWhile_ws_cons hws _
    have hnone : jsonParseL (prose ++ s) = none := jsonParseL_none_of_bad_head hdrop hstart
    have hslice : firstBracketSlice (prose ++ s) = some s := by
      have : prose ++ s = prose ++ (s ++ []) := by simp
      rw [this]
      exact firstBracketSlice_mid hsh hsl _ _ hbr (by simp)
    constructor
    · simp [groqParseResponse, hclean, hnone, hslice, hparse, jsonRecords]
    · simp [openaiParseResponse, hslice, hparse, jsonRecords]
  · intro trest c hws hstart hbr hbt
    obtain ⟨z, hclean, hmem⟩ := groqClean_plain hws hbt
    have hnone : jsonParseL (c :: z) = none :=
      jsonParseL_none_of_bad_head (dropWhile_ws_cons hws z) hstart
    have hnobr : '[' ∉ c :: z := by
      intro hmem2
      rcases List.mem_cons.mp hmem2 with heq | hmem2
      · exact hbr (heq ▸ List.mem_cons_self c trest)
      · exact hbr (hmem '[' hmem2)
    have hslice : firstBracketSlice (c :: z) = none := firstBracketSlice_none hnobr
    have hnone2 : jsonParseL (c :: trest) = none :=
      jsonParseL_none_of_bad_head (dropWhile_ws_cons hws trest) hstart
    have hslice2 : firstBracketSlice (c :: trest) = none := firstBracketSlice_none hbr
    constructor
    · simp [groqParseResponse, hclean, hnone, hslice]
    · simp [openaiParseResponse, hslice2, hnone2]

/-- Witness for C6 at concrete inputs: the array `[true]` is recovered from a
```json fence and from leading prose by both services, and a wholly non-JSON
sentence yields `[]` in both. -/
theorem extractSpecs_parse_resilience_witness :
    groqParseResponse (fenceJson "[true]".data) = [Json.bool true] ∧
    openaiParseResponse (fenceJson "[true]".data) = [Json.bool true] ∧
    groqParseResponse ("Results: ".data ++ "[true]".data) = [Json.bool true] ∧
    openaiParseResponse ("Results: ".data ++ "[true]".data) = [Json.bool true] ∧
    groqParseResponse "No specs found.".data = [] ∧
    openaiParseResponse "No specs found.".data = [] := by
  have h1 := extractSpecs_parse_resilience.1 "[true]".data "true]".data [Json.bool true]
    (by with_unfolding_all rfl) rfl (by decide)
  have h2 := extractSpecs_parse_resilience.2.1 "[true]".data "true]".data "Results: ".data
    "esults: ".data 'R' [Json.bool true] (by with_unfolding_all rfl) rfl (by decide) rfl
    (by decide) (by decide) (by decide) (by decide)
  have h3 := extractSpecs_parse_resilience.2.2 "o specs found.".data 'N'
    (by decide) (by decide) (by decide) (by decide)
  exact ⟨h1.1, h1.2, h2.1, h2.2, h3.1, h3.2⟩
